import Mathlib

/-!
Verification of the badger SST/iterator subsystem against its specification.

The development shallowly embeds the Go sources:
  * `surf/bits_vec.go` — bit vectors with rank/select, label/value vectors,
    their marshalled forms;
  * the `y` package key/value helpers (`ValueStruct`, `SeekToVersion`,
    `BoundedIterator`);
  * the user-facing snapshot iterator (`Iterator.parseItem`, `Iterator.Next`).

Machine integers are modelled as `Nat` with explicit `% 2^w` where Go's
fixed-width arithmetic can wrap; byte strings are `List Nat`; code that can
panic (out-of-range slicing / indexing) returns `Option`.

Helpers of this repository that are referenced by the embedded files but whose
definitions are not part of the given sources (the surf `utils` helpers
`readBit`, `popcountBlock`, `select64`, `align`, the little-endian codec, and
the `y` key helpers `ParseKey`/`ParseTs`/`SameKey` together with the meta bits)
are modelled from the specification; each such definition carries a
`Modelled from the spec:` doc comment.
-/

/-! ## Word-level bit primitives (surf utils, modelled from the spec) -/

/-- Modelled from the spec: the number of set bits of `w` among bit positions
`0 ≤ i < n`.  `countBits w 64` models `bits.OnesCount64` for a 64-bit word. -/
def countBits (w n : Nat) : Nat :=
  (List.range n).countP (fun i => w.testBit i)

/-- Modelled from the spec: `popcountBlock`'s word popcount, specialised to
64-bit words (`bits.OnesCount64 w` for `w < 2^64`). -/
def popcount64 (w : Nat) : Nat := countBits w 64

/-- Modelled from the spec: fuel-bounded scan for the zero-based position of
the `r`-th (1-based) set bit of `w`; the fuel is the word width. -/
def nthOneAux : Nat → Nat → Nat → Nat
  | 0, _, _ => 0
  | f + 1, w, r =>
    if w % 2 = 1 then
      if r ≤ 1 then 0 else 1 + nthOneAux f (w / 2) (r - 1)
    else 1 + nthOneAux f (w / 2) r

/-- Modelled from the spec: the word-local `select64` (de Bruijn or PDEP in the
implementation): zero-based position of the `rank`-th (1-based) set bit of a
64-bit word. -/
def select64 (w rank : Nat) : Nat := nthOneAux 64 w rank

/-- Modelled from the spec: `bits.TrailingZeros64`; `64` for the zero word,
otherwise the position of the lowest set bit. -/
def trailingZeros64 (w : Nat) : Nat :=
  if w = 0 then 64 else nthOneAux 64 w 1

/-- Modelled from the spec: `readBit bits pos` reads bit `pos % 64` of word
`pos / 64` of a `[]uint64` bit array (out-of-range words read as zero). -/
def readBit (bits : List Nat) (pos : Nat) : Bool :=
  (bits.getD (pos / 64) 0).testBit (pos % 64)

/-- Number of set bits of the bit array at positions `0 ≤ q < n`. -/
def countUpto (bits : List Nat) (n : Nat) : Nat :=
  (List.range n).countP (fun q => readBit bits q)

/-- Modelled from the spec: `popcountBlock bits off nbits` — the popcount of
the `nbits` bits starting at word offset `off` of the bit array. -/
def popcountBlock (bits : List Nat) (off nbits : Nat) : Nat :=
  (List.range nbits).countP (fun i => readBit bits (64 * off + i))

theorem countBits_zero_left (n : Nat) : countBits 0 n = 0 := by
  unfold countBits
  induction n with
  | zero => rfl
  | succ m ih =>
    rw [List.range_succ, List.countP_append] at *
    simp [ih]

theorem countBits_succ (w n : Nat) :
    countBits w (n + 1) = (if w % 2 = 1 then 1 else 0) + countBits (w / 2) n := by
  unfold countBits
  rw [List.range_succ_eq_map, List.countP_cons, List.countP_map]
  have h0 : (fun i => w.testBit i) 0 = decide (w % 2 = 1) := by
    simp [Nat.testBit_zero]
  have hc : ((fun i => w.testBit i) ∘ Nat.succ) = fun i => (w / 2).testBit i := by
    funext i
    simp [Function.comp, Nat.testBit_succ]
  rw [hc]
  by_cases h : w % 2 = 1 <;> simp [h, Nat.add_comm]

theorem countBits_mono (w : Nat) {m n : Nat} (h : m ≤ n) :
    countBits w m ≤ countBits w n := by
  unfold countBits
  obtain ⟨k, rfl⟩ := Nat.le.dest h
  rw [List.range_add, List.countP_append]
  omega

/-- The characteristic property of `nthOneAux`: for `1 ≤ r ≤ countBits w f`,
the returned position carries a set bit and has exactly `r - 1` set bits
below it. -/
theorem nthOneAux_spec : ∀ (f w r : Nat), 1 ≤ r → r ≤ countBits w f →
    w.testBit (nthOneAux f w r) = true ∧ countBits w (nthOneAux f w r) = r - 1 := by
  intro f
  induction f with
  | zero =>
    intro w r h1 h2
    unfold countBits at h2
    simp at h2
    omega
  | succ f ih =>
    intro w r h1 h2
    rw [countBits_succ] at h2
    by_cases hw : w % 2 = 1
    · rw [hw] at h2
      simp at h2
      by_cases hr : r ≤ 1
      · have hr1 : r = 1 := by omega
        subst hr1
        have hv : nthOneAux (f + 1) w 1 = 0 := by simp [nthOneAux, hw]
        rw [hv]
        refine ⟨by simp [Nat.testBit_zero, hw], ?_⟩
        unfold countBits
        simp
      · have h1' : 1 ≤ r - 1 := by omega
        have h2' : r - 1 ≤ countBits (w / 2) f := by omega
        obtain ⟨ha, hb⟩ := ih (w / 2) (r - 1) h1' h2'
        simp only [nthOneAux, hw, if_true, hr, if_false]
        constructor
        · have := Nat.testBit_succ w (nthOneAux f (w / 2) (r - 1))
          rw [Nat.add_comm 1 (nthOneAux f (w / 2) (r - 1))]
          rw [Nat.testBit_succ]
          exact ha
        · rw [Nat.add_comm 1 (nthOneAux f (w / 2) (r - 1))]
          rw [countBits_succ, hw]
          simp [hb]
          omega
    · rw [if_neg hw] at h2
      simp at h2
      have h2' : r ≤ countBits (w / 2) f := by omega
      obtain ⟨ha, hb⟩ := ih (w / 2) r h1 h2'
      simp only [nthOneAux, hw, if_false]
      constructor
      · rw [Nat.add_comm 1 (nthOneAux f (w / 2) r)]
        rw [Nat.testBit_succ]
        exact ha
      · rw [Nat.add_comm 1 (nthOneAux f (w / 2) r)]
        rw [countBits_succ, if_neg hw]
        simp [hb]

theorem getD_of_le {α : Type} (l : List α) (n : Nat) (d : α) (h : l.length ≤ n) :
    l.getD n d = d := by
  simp [List.getD_eq_getElem?_getD, List.getElem?_eq_none h]

theorem readBit_oob (bits : List Nat) (q : Nat) (h : 64 * bits.length ≤ q) :
    readBit bits q = false := by
  unfold readBit
  have hq : bits.length ≤ q / 64 := by
    have := @Nat.div_le_div_right _ _ 64 h
    simpa [Nat.mul_div_cancel_left _ (by norm_num : 0 < 64)] using this
  rw [getD_of_le _ _ _ hq]
  simp

theorem word_lt_of_readBit (bits : List Nat) (q : Nat) (h : readBit bits q = true) :
    q / 64 < bits.length := by
  by_contra hc
  have : 64 * bits.length ≤ q := by
    have h64 : bits.length ≤ q / 64 := by omega
    calc 64 * bits.length ≤ 64 * (q / 64) := by omega
      _ ≤ q := Nat.mul_div_le q 64
  rw [readBit_oob bits q this] at h
  exact Bool.false_ne_true h

theorem countUpto_word_split (bits : List Nat) (wo b : Nat) (hb : b ≤ 64) :
    countUpto bits (64 * wo + b) = countUpto bits (64 * wo) + countBits (bits.getD wo 0) b := by
  unfold countUpto countBits
  rw [List.range_add, List.countP_append, List.countP_map]
  congr 1
  apply List.countP_congr
  intro i hi
  have hib : i < b := List.mem_range.mp hi
  have h1 : (64 * wo + i) / 64 = wo := by omega
  have h2 : (64 * wo + i) % 64 = i := by omega
  simp only [Function.comp]
  unfold readBit
  rw [h1, h2]

theorem countUpto_mono (bits : List Nat) {m n : Nat} (h : m ≤ n) :
    countUpto bits m ≤ countUpto bits n := by
  unfold countUpto
  obtain ⟨k, rfl⟩ := Nat.le.dest h
  rw [List.range_add, List.countP_append]
  omega

theorem countUpto_cap (bits : List Nat) (n : Nat) (h : 64 * bits.length ≤ n) :
    countUpto bits n = countUpto bits (64 * bits.length) := by
  unfold countUpto
  obtain ⟨k, hk⟩ := Nat.le.dest h
  subst hk
  rw [List.range_add, List.countP_append]
  have hz : (List.countP (fun q => readBit bits q) ((List.range k).map (64 * bits.length + ·))) = 0 := by
    rw [List.countP_eq_zero]
    intro a ha
    obtain ⟨i, _, rfl⟩ := List.mem_map.mp ha
    simp [readBit_oob bits _ (Nat.le_add_right _ _)]
  omega

theorem exists_readBit_of_countUpto_lt (bits : List Nat) (m n : Nat)
    (h : countUpto bits m < countUpto bits n) :
    ∃ q, m ≤ q ∧ q < n ∧ readBit bits q = true := by
  have hmn : m ≤ n := by
    by_contra hc
    have := countUpto_mono bits (Nat.le_of_lt (Nat.lt_of_not_le hc))
    omega
  obtain ⟨k, rfl⟩ := Nat.le.dest hmn
  unfold countUpto at h
  rw [List.range_add, List.countP_append] at h
  have hpos : 0 < List.countP (fun q => readBit bits q) ((List.range k).map (m + ·)) := by omega
  obtain ⟨a, ha, hpa⟩ := List.countP_pos_iff.mp hpos
  obtain ⟨i, hi, rfl⟩ := List.mem_map.mp ha
  exact ⟨m + i, Nat.le_add_right _ _, by have := List.mem_range.mp hi; omega, hpa⟩

/-! ## C7: `y.SeekToVersion` -/

/-- Shallow embedding of `y.SeekToVersion` specialised to the claim's iterator
model: a valid iterator positioned at version `cur` of one user-key whose
`NextVersion` steps through `rest`.  The result is the returned boolean, the
version the iterator ends on and the versions still ahead of it. -/
def seekToVersion (cur : Nat) (rest : List Nat) (version : Nat) : Bool × Nat × List Nat :=
  if version ≥ cur then (true, cur, rest)
  else
    match rest with
    | [] => (false, cur, [])
    | c :: r => seekToVersion c r version

/-- C7: on a valid iterator whose `NextVersion` enumerates the remaining
versions of the user-key in strictly descending order, `SeekToVersion`
returns `true` and stops on the largest version `≤ t` when one exists, and
returns `false` when every version exceeds `t`. -/
theorem seekToVersion_correct (cur : Nat) (rest : List Nat) (t : Nat)
    (hsort : (cur :: rest).Pairwise (fun a b => b < a)) :
    ((∃ v ∈ cur :: rest, v ≤ t) →
      (seekToVersion cur rest t).1 = true ∧
      (seekToVersion cur rest t).2.1 ∈ cur :: rest ∧
      (seekToVersion cur rest t).2.1 ≤ t ∧
      (∀ v ∈ cur :: rest, v ≤ t → v ≤ (seekToVersion cur rest t).2.1)) ∧
    ((∀ v ∈ cur :: rest, t < v) → (seekToVersion cur rest t).1 = false) := by
  induction rest generalizing cur with
  | nil =>
    by_cases h : t ≥ cur
    · have hstep : seekToVersion cur [] t = (true, cur, []) := by
        unfold seekToVersion
        rw [if_pos h]
      rw [hstep]
      constructor
      · intro _
        refine ⟨rfl, List.mem_singleton.mpr rfl, h, ?_⟩
        intro v hv _
        rw [List.mem_singleton.mp hv]
      · intro hall
        have := hall cur (List.mem_singleton.mpr rfl)
        omega
    · have hstep : seekToVersion cur [] t = (false, cur, []) := by
        unfold seekToVersion
        rw [if_neg h]
      rw [hstep]
      constructor
      · intro ⟨v, hv, hvt⟩
        rw [List.mem_singleton.mp hv] at hvt
        omega
      · intro _
        rfl
  | cons c r ih =>
    by_cases h : t ≥ cur
    · have hstep : seekToVersion cur (c :: r) t = (true, cur, c :: r) := by
        unfold seekToVersion
        rw [if_pos h]
      rw [hstep]
      dsimp only
      constructor
      · intro _
        refine ⟨rfl, List.mem_cons_self _ _, h, ?_⟩
        intro v hv _
        rcases List.mem_cons.mp hv with h1 | h1
        · omega
        · have := (List.pairwise_cons.mp hsort).1 v h1
          omega
      · intro hall
        have := hall cur (List.mem_cons_self _ _)
        omega
    · have hstep : seekToVersion cur (c :: r) t = seekToVersion c r t := by
        conv_lhs => rw [seekToVersion]
        rw [if_neg h]
      rw [hstep]
      have hsort' := (List.pairwise_cons.mp hsort).2
      obtain ⟨ihA, ihB⟩ := ih c hsort'
      constructor
      · intro ⟨v, hv, hvt⟩
        have hv' : v ∈ c :: r := by
          rcases List.mem_cons.mp hv with h1 | h1
          · omega
          · exact h1
        obtain ⟨hb, hmem, hle, hmax⟩ := ihA ⟨v, hv', hvt⟩
        refine ⟨hb, List.mem_cons_of_mem _ hmem, hle, ?_⟩
        intro w hw hwt
        have hw' : w ∈ c :: r := by
          rcases List.mem_cons.mp hw with h1 | h1
          · omega
          · exact h1
        exact hmax w hw' hwt
      · intro hall
        exact ihB (fun v hv => hall v (List.mem_cons_of_mem _ hv))

/-- Witness for C7 at a concrete iterator: versions `9 > 7 > 5 > 3 > 1`,
seek to `t = 6` lands on `5`; seek to `t = 0` returns `false`. -/
theorem seekToVersion_correct_witness :
    (seekToVersion 9 [7, 5, 3, 1] 6).1 = true ∧
    (seekToVersion 9 [7, 5, 3, 1] 6).2.1 = 5 ∧
    (seekToVersion 9 [7, 5, 3, 1] 0).1 = false := by
  have h := seekToVersion_correct 9 [7, 5, 3, 1] 6 (by decide)
  have h2 := seekToVersion_correct 9 [7, 5, 3, 1] 0 (by decide)
  refine ⟨(h.1 ⟨5, by decide, by decide⟩).1, by decide, h2.2 (by decide)⟩

/-! ## Little-endian codec (modelled from the spec: all numeric widths are
fixed 1/2/4/8-byte little-endian) -/

/-- Modelled from the spec: the four little-endian bytes of a `uint32`. -/
def u32le (n : Nat) : List Nat :=
  [n % 256, n / 256 % 256, n / 65536 % 256, n / 16777216 % 256]

/-- Modelled from the spec: `endian.Uint32` — read a little-endian `uint32`
from the first four bytes. -/
def readU32 (bs : List Nat) : Nat :=
  bs.getD 0 0 + 256 * bs.getD 1 0 + 65536 * bs.getD 2 0 + 16777216 * bs.getD 3 0

/-- Modelled from the spec: the eight little-endian bytes of a `uint64`. -/
def u64le (n : Nat) : List Nat :=
  [n % 256, n / 256 % 256, n / 65536 % 256, n / 16777216 % 256,
   n / 4294967296 % 256, n / 1099511627776 % 256,
   n / 281474976710656 % 256, n / 72057594037927936 % 256]

/-- Modelled from the spec: `binary.LittleEndian.Uint64` — read a
little-endian `uint64` from the first eight bytes. -/
def readU64 (bs : List Nat) : Nat :=
  bs.getD 0 0 + 256 * bs.getD 1 0 + 65536 * bs.getD 2 0 + 16777216 * bs.getD 3 0 +
  4294967296 * bs.getD 4 0 + 1099511627776 * bs.getD 5 0 +
  281474976710656 * bs.getD 6 0 + 72057594037927936 * bs.getD 7 0

theorem u32le_length (n : Nat) : (u32le n).length = 4 := rfl

theorem u64le_length (n : Nat) : (u64le n).length = 8 := rfl

theorem readU32_u32le (n : Nat) (r : List Nat) (h : n < 2 ^ 32) :
    readU32 (u32le n ++ r) = n := by
  simp only [u32le, readU32, List.cons_append, List.nil_append,
    List.getD_cons_zero, List.getD_cons_succ]
  omega

theorem readU64_u64le (n : Nat) (r : List Nat) (h : n < 2 ^ 64) :
    readU64 (u64le n ++ r) = n := by
  simp only [u64le, readU64, List.cons_append, List.nil_append,
    List.getD_cons_zero, List.getD_cons_succ]
  omega

/-! ## C8: `y.ValueStruct` encode / decode -/

/-- Shallow embedding of `y.ValueStruct`.  `Meta` is a byte, `UserMeta` and
`Value` are byte strings, `Version` a `uint64` (not serialised by the caller's
framing, but part of the record encoding here). -/
structure VStruct where
  Meta : Nat
  UserMeta : List Nat
  Value : List Nat
  Version : Nat
deriving DecidableEq

/-- Embedding of `ValueStruct.EncodedSize`. -/
def encodedSize (v : VStruct) : Nat :=
  v.Value.length + v.UserMeta.length + 2 + 8

/-- Embedding of `ValueStruct.Encode` writing into a buffer of length exactly
`EncodedSize` (and of `EncodeTo`, which appends the same bytes): the version as
little-endian `uint64`, the meta byte, the one-byte user-meta length, the
user-meta bytes, then the value bytes filling the rest of the buffer. -/
def encodeVS (v : VStruct) : List Nat :=
  u64le v.Version ++ v.Meta % 256 :: v.UserMeta.length % 256 :: (v.UserMeta ++ v.Value)

/-- Embedding of `ValueStruct.Decode`.  The Go code computes
`userMetaEnd := 2 + b[1]` in byte arithmetic (wrapping mod 256) and slices
`b[2:userMetaEnd]` and `b[userMetaEnd:]`; a reversed or out-of-range slice
panics, modelled as `none`. -/
def decodeVS (b : List Nat) : Option VStruct :=
  if b.length < 10 then none
  else
    let ver := readU64 (b.take 8)
    let b' := b.drop 8
    let meta := b'.getD 0 0
    let umLen := b'.getD 1 0
    let umEnd := (2 + umLen) % 256
    if umLen = 0 then some ⟨meta, [], b'.drop 2, ver⟩
    else if umEnd < 2 ∨ b'.length < umEnd then none
    else some ⟨meta, (b'.take umEnd).drop 2, b'.drop umEnd, ver⟩

set_option maxRecDepth 8000 in
/-- Counterexample to C8 as stated: a `ValueStruct` whose user-meta has length
254 (within the claimed `≤ 255`) encodes fine, but decoding panics, because
`userMetaEnd = 2 + 254` wraps to `0` in byte arithmetic. -/
theorem valueStruct_roundtrip_counterexample :
    (VStruct.mk 7 (List.replicate 254 1) [2] 3).UserMeta.length = 254 ∧
    decodeVS (encodeVS (VStruct.mk 7 (List.replicate 254 1) [2] 3)) = none := by
  constructor
  · rfl
  · rfl

/-- C8 (amended: user-meta length at most 253 — for 254 and 255 the byte-typed
`userMetaEnd := 2 + b[1]` wraps below 2 and `Decode` panics): encoding a
`ValueStruct` into a buffer of length `EncodedSize` and decoding it yields
equal `Meta`, `UserMeta`, `Value` and `Version`; the encoding is the
little-endian `u64` version, then the meta byte, then the one-byte user-meta
length, then the user-meta, with the value occupying the rest. -/
theorem valueStruct_roundtrip (v : VStruct)
    (hm : v.Meta < 256) (hv : v.Version < 2 ^ 64) (hu : v.UserMeta.length ≤ 253) :
    (encodeVS v).length = encodedSize v ∧ decodeVS (encodeVS v) = some v := by
  obtain ⟨meta, um, val, ver⟩ := v
  simp only [encodedSize] at *
  constructor
  · simp [encodeVS, u64le]
    omega
  · have hlen : (encodeVS ⟨meta, um, val, ver⟩).length = 10 + um.length + val.length := by
      simp [encodeVS, u64le]
      omega
    have hnot : ¬ (encodeVS ⟨meta, um, val, ver⟩).length < 10 := by omega
    unfold decodeVS
    rw [if_neg hnot]
    have htake : (encodeVS ⟨meta, um, val, ver⟩).take 8 = u64le ver := by
      unfold encodeVS
      exact List.take_left' (u64le_length ver)
    have hdrop : (encodeVS ⟨meta, um, val, ver⟩).drop 8 =
        meta % 256 :: um.length % 256 :: (um ++ val) := by
      unfold encodeVS
      exact List.drop_left' (u64le_length ver)
    rw [htake, hdrop]
    have hver : readU64 (u64le ver) = ver := by
      have := readU64_u64le ver [] hv
      simpa using this
    have hmeta : meta % 256 = meta := Nat.mod_eq_of_lt hm
    have humlen : um.length % 256 = um.length := Nat.mod_eq_of_lt (by omega)
    simp only [List.getD_cons_zero, List.getD_cons_succ, hver, hmeta, humlen]
    by_cases h0 : um.length = 0
    · rw [if_pos h0]
      have : um = [] := List.length_eq_zero.mp h0
      subst this
      simp
    · rw [if_neg h0]
      have humE : (2 + um.length) % 256 = 2 + um.length := Nat.mod_eq_of_lt (by omega)
      rw [humE]
      have hcond : ¬ (2 + um.length < 2 ∨
          (meta :: um.length :: (um ++ val)).length < 2 + um.length) := by
        simp only [List.length_cons, List.length_append]
        omega
      rw [if_neg hcond]
      have hsplit : meta :: um.length :: (um ++ val) = (meta :: um.length :: um) ++ val := by
        simp
      have hlen2 : (2 + um.length) = (meta :: um.length :: um).length := by
        simp
        omega
      have htk : (meta :: um.length :: (um ++ val)).take (2 + um.length) =
          meta :: um.length :: um := by
        rw [hlen2, hsplit, List.take_left]
      have hdk : (meta :: um.length :: (um ++ val)).drop (2 + um.length) = val := by
        rw [hlen2, hsplit, List.drop_left]
      rw [htk, hdk]
      simp

/-- Witness for the amended C8 at a concrete record. -/
theorem valueStruct_roundtrip_witness :
    (encodeVS (VStruct.mk 65 [1, 2] [9, 9, 9] 77)).length =
      encodedSize (VStruct.mk 65 [1, 2] [9, 9, 9] 77) ∧
    decodeVS (encodeVS (VStruct.mk 65 [1, 2] [9, 9, 9] 77)) =
      some (VStruct.mk 65 [1, 2] [9, 9, 9] 77) :=
  valueStruct_roundtrip (VStruct.mk 65 [1, 2] [9, 9, 9] 77)
    (by decide) (by decide) (by decide)

/-! ## C10: `y.BoundedIterator` -/

/-- Modelled from the spec: an internal key is the pair `(user_key, version)`;
the wire form `user_key || be_u64(MAX - version)` is a bijection onto such
pairs, so keys are modelled as the pairs themselves.  `y.Key`'s fields
`UserKey`/`Version` and `ParseKey`/`ParseTs` on the wire form are the two
projections. -/
structure IKey where
  userKey : List Nat
  version : Nat
deriving DecidableEq

/-- Shallow embedding of `bytes.Compare` on byte strings: `-1`, `0` or `1`
for less / equal / greater in lexicographic order. -/
def cmpBytes : List Nat → List Nat → Int
  | [], [] => 0
  | [], _ :: _ => -1
  | _ :: _, [] => 1
  | a :: as, b :: bs => if a < b then -1 else if b < a then 1 else cmpBytes as bs

theorem cmpBytes_eq_zero_iff : ∀ (a b : List Nat), cmpBytes a b = 0 ↔ a = b := by
  intro a
  induction a with
  | nil =>
    intro b
    cases b with
    | nil => simp [cmpBytes]
    | cons x xs => simp [cmpBytes]
  | cons x xs ih =>
    intro b
    cases b with
    | nil => simp [cmpBytes]
    | cons y ys =>
      unfold cmpBytes
      by_cases h1 : x < y
      · simp [h1]
        omega
      · by_cases h2 : y < x
        · simp [h1, h2]
          omega
        · have hxy : x = y := by omega
          subst hxy
          simp [h1, h2, ih ys]

theorem cmpBytes_neg_iff : ∀ (a b : List Nat),
    cmpBytes a b = -1 ↔ List.Lex (· < ·) a b := by
  intro a
  induction a with
  | nil =>
    intro b
    cases b with
    | nil =>
      constructor
      · intro h
        exact absurd h (by simp [cmpBytes])
      · intro h
        exact absurd h (List.Lex.not_nil_right _ _)
    | cons y ys =>
      constructor
      · intro _
        exact List.Lex.nil
      · intro _
        rfl
  | cons x xs ih =>
    intro b
    cases b with
    | nil =>
      constructor
      · intro h
        exact absurd h (by simp [cmpBytes])
      · intro h
        exact absurd h (List.Lex.not_nil_right _ _)
    | cons y ys =>
      unfold cmpBytes
      by_cases h1 : x < y
      · rw [if_pos h1]
        constructor
        · intro _
          exact List.Lex.rel h1
        · intro _
          rfl
      · rw [if_neg h1]
        by_cases h2 : y < x
        · rw [if_pos h2]
          constructor
          · intro h
            exact absurd h (by norm_num)
          · intro h
            cases h with
            | cons h => omega
            | rel h => omega
        · rw [if_neg h2]
          have hxy : x = y := by omega
          subst hxy
          rw [ih ys]
          constructor
          · exact List.Lex.cons
          · intro h
            cases h with
            | cons h => exact h
            | rel h => omega

theorem cmpBytes_total : ∀ (a b : List Nat),
    cmpBytes a b = -1 ∨ cmpBytes a b = 0 ∨ cmpBytes a b = 1 := by
  intro a
  induction a with
  | nil =>
    intro b
    cases b with
    | nil => simp [cmpBytes]
    | cons y ys => simp [cmpBytes]
  | cons x xs ih =>
    intro b
    cases b with
    | nil => simp [cmpBytes]
    | cons y ys =>
      unfold cmpBytes
      by_cases h1 : x < y
      · rw [if_pos h1]
        norm_num
      · rw [if_neg h1]
        by_cases h2 : y < x
        · rw [if_pos h2]
          norm_num
        · rw [if_neg h2]
          exact ih ys

theorem lexLt_irrefl (a : List Nat) : ¬ List.Lex (· < ·) a a := by
  induction a with
  | nil => exact List.Lex.not_nil_right _ _
  | cons x xs ih =>
    intro h
    cases h with
    | cons h => exact ih h
    | rel h => omega

theorem cmpBytes_lt_iff (a b : List Nat) :
    cmpBytes a b < 0 ↔ List.Lex (· < ·) a b := by
  rcases cmpBytes_total a b with h | h | h
  · rw [h]
    rw [cmpBytes_neg_iff a b] at h
    simp [h]
  · rw [h]
    rw [cmpBytes_eq_zero_iff a b] at h
    subst h
    simp [lexLt_irrefl a]
  · rw [h]
    constructor
    · intro hc
      norm_num at hc
    · intro hc
      rw [(cmpBytes_neg_iff a b).mpr hc] at h
      norm_num at h

theorem cmpBytes_le_iff (a b : List Nat) :
    cmpBytes a b ≤ 0 ↔ (a = b ∨ List.Lex (· < ·) a b) := by
  rcases cmpBytes_total a b with h | h | h
  · rw [h]
    rw [cmpBytes_neg_iff a b] at h
    simp [h]
  · rw [h]
    rw [cmpBytes_eq_zero_iff a b] at h
    simp [h]
  · rw [h]
    constructor
    · intro hc
      norm_num at hc
    · intro hc
      rcases hc with hc | hc
      · rw [(cmpBytes_eq_zero_iff a b).mpr hc] at h
        norm_num at h
      · rw [(cmpBytes_neg_iff a b).mpr hc] at h
        norm_num at h

/-- Shallow embedding of `BoundedIterator.Valid`: the underlying iterator must
be valid and the current user-key must lie within the bound for the direction. -/
def boundedValid (reverse : Bool) (start end_ : List Nat) (innerValid : Bool)
    (cur : IKey) : Bool :=
  if !innerValid then false
  else if reverse then decide (cmpBytes start cur.userKey ≤ 0)
  else decide (cmpBytes cur.userKey end_ < 0)

/-- Shallow embedding of the key actually delegated by `BoundedIterator.Seek`:
the requested key after the bound clamp for the direction. -/
def boundedSeekKey (reverse : Bool) (start end_ key : List Nat) : List Nat :=
  if reverse then (if cmpBytes end_ key < 0 then end_ else key)
  else (if cmpBytes key start < 0 then start else key)

/-- C10: `BoundedIterator.Valid` is true iff the underlying iterator is valid
and the user-key is strictly below `end` (forward, `end` excluded) resp. at
least `start` (reverse, `start` included); and `Seek` delegates the requested
key clamped up to `start` (forward) resp. down to `end` (reverse) in
lexicographic byte order. -/
theorem boundedIterator_correct (reverse : Bool) (start end_ key : List Nat)
    (innerValid : Bool) (cur : IKey) :
    (boundedValid reverse start end_ innerValid cur = true ↔
      (innerValid = true ∧
        (if reverse then (start = cur.userKey ∨ List.Lex (· < ·) start cur.userKey)
         else List.Lex (· < ·) cur.userKey end_))) ∧
    ((List.Lex (· < ·) key start → boundedSeekKey false start end_ key = start) ∧
     (¬ List.Lex (· < ·) key start → boundedSeekKey false start end_ key = key) ∧
     (List.Lex (· < ·) end_ key → boundedSeekKey true start end_ key = end_) ∧
     (¬ List.Lex (· < ·) end_ key → boundedSeekKey true start end_ key = key)) := by
  have hsf : boundedSeekKey false start end_ key =
      (if cmpBytes key start < 0 then start else key) := rfl
  have hst : boundedSeekKey true start end_ key =
      (if cmpBytes end_ key < 0 then end_ else key) := rfl
  constructor
  · cases innerValid with
    | false =>
      have hv : boundedValid reverse start end_ false cur = false := rfl
      rw [hv]
      simp
    | true =>
      cases reverse with
      | false =>
        have hv : boundedValid false start end_ true cur =
            decide (cmpBytes cur.userKey end_ < 0) := rfl
        rw [hv, decide_eq_true_iff, cmpBytes_lt_iff]
        simp
      | true =>
        have hv : boundedValid true start end_ true cur =
            decide (cmpBytes start cur.userKey ≤ 0) := rfl
        rw [hv, decide_eq_true_iff, cmpBytes_le_iff]
        simp
  · refine ⟨?_, ?_, ?_, ?_⟩
    · intro h
      rw [hsf, if_pos ((cmpBytes_lt_iff key start).mpr h)]
    · intro h
      rw [hsf, if_neg (fun hc => h ((cmpBytes_lt_iff key start).mp hc))]
    · intro h
      rw [hst, if_pos ((cmpBytes_lt_iff end_ key).mpr h)]
    · intro h
      rw [hst, if_neg (fun hc => h ((cmpBytes_lt_iff end_ key).mp hc))]

/-- Witness for C10 at concrete bounds `[start, end) = ([2], [5])`. -/
theorem boundedIterator_correct_witness :
    (boundedValid false [2] [5] true (IKey.mk [3] 0) = true ↔
      (true = true ∧ List.Lex (· < ·) [3] [5])) ∧
    (List.Lex (· < ·) [1] [2] → boundedSeekKey false [2] [5] [1] = [2]) := by
  have h := boundedIterator_correct false [2] [5] [1] true (IKey.mk [3] 0)
  exact ⟨by simpa using h.1, h.2.1⟩

/-! ## C6: `rankVectorDense.Rank` / `rankVectorSparse.Rank` -/

theorem countUpto_add (bits : List Nat) (start n : Nat) :
    countUpto bits (start + n) =
      countUpto bits start + (List.range n).countP (fun i => readBit bits (start + i)) := by
  unfold countUpto
  rw [List.range_add, List.countP_append, List.countP_map]
  rfl

theorem popcountBlock_eq (bits : List Nat) (off n : Nat) :
    countUpto bits (64 * off + n) = countUpto bits (64 * off) + popcountBlock bits off n := by
  rw [countUpto_add]
  rfl

theorem getD_range_map {α : Type} (f : Nat → α) (n i : Nat) (d : α) (h : i < n) :
    ((List.range n).map f).getD i d = f i := by
  simp [List.getD_eq_getElem?_getD, List.getElem?_map, List.getElem?_range h]

/-- Shallow embedding of the `rankVector` state: the merged bit array (the
result of `bitVector.Init`, which concatenates the per-level bit arrays), the
total bit count, the block size and the rank look-up table. -/
structure RankVecM where
  numBits : Nat
  bits : List Nat
  blockSize : Nat
  rankLut : List Nat
deriving DecidableEq

/-- The running total maintained by `rankVector.init`: `rankLutVal … i` is the
value the loop stores into `rankLut[i]`, the popcounts of the first `i`
blocks.  `wpb` is `blockSize / wordSize`. -/
def rankLutVal (bits : List Nat) (wpb blockSize : Nat) : Nat → Nat
  | 0 => 0
  | i + 1 => rankLutVal bits wpb blockSize i + popcountBlock bits (i * wpb) blockSize

/-- Shallow embedding of `rankVector.init` on the merged bit array: `nblks =
numBits/blockSize + 1` table entries, entry `i` holding the running popcount
total of the blocks before block `i`. -/
def rankVecInit (blockSize : Nat) (bits : List Nat) (numBits : Nat) : RankVecM :=
  ⟨numBits, bits, blockSize,
    (List.range (numBits / blockSize + 1)).map (rankLutVal bits (blockSize / 64) blockSize)⟩

/-- Shallow embedding of `rankVectorDense.Rank` (block = 64 bits, one word per
block). -/
def rankVectorDenseRank (v : RankVecM) (pos : Nat) : Nat :=
  v.rankLut.getD (pos / 64) 0 + popcountBlock v.bits (pos / 64 * 1) (pos % 64 + 1)

/-- Shallow embedding of `rankVectorSparse.Rank` (block = 512 bits, eight
words per block). -/
def rankVectorSparseRank (v : RankVecM) (pos : Nat) : Nat :=
  v.rankLut.getD (pos / 512) 0 + popcountBlock v.bits (pos / 512 * 8) (pos % 512 + 1)

theorem rankLutVal_eq (bits : List Nat) (wpb blockSize : Nat) (hw : 64 * wpb = blockSize) :
    ∀ i, rankLutVal bits wpb blockSize i = countUpto bits (i * blockSize) := by
  intro i
  induction i with
  | zero =>
    unfold rankLutVal countUpto
    simp
  | succ i ih =>
    unfold rankLutVal
    rw [ih]
    have h1 : 64 * (i * wpb) = i * blockSize := by
      calc 64 * (i * wpb) = i * (64 * wpb) := by ring
        _ = i * blockSize := by rw [hw]
    have h2 := popcountBlock_eq bits (i * wpb) blockSize
    rw [h1] at h2
    rw [← h2]
    congr 1
    ring

/-- C6: for rank vectors built by `init` — the dense variant with 64-bit
blocks and the sparse variant with 512-bit blocks — `Rank pos` equals the
number of set bits at positions `0` through `pos` inclusive, for every
`pos < numBits`. -/
theorem rank_correct (bits : List Nat) (numBits pos : Nat) (h : pos < numBits) :
    rankVectorDenseRank (rankVecInit 64 bits numBits) pos = countUpto bits (pos + 1) ∧
    rankVectorSparseRank (rankVecInit 512 bits numBits) pos = countUpto bits (pos + 1) := by
  constructor
  · unfold rankVectorDenseRank rankVecInit
    have hlt : pos / 64 < numBits / 64 + 1 := by
      have := @Nat.div_le_div_right _ _ 64 (Nat.le_of_lt h)
      omega
    rw [getD_range_map _ _ _ _ hlt]
    rw [rankLutVal_eq bits (64 / 64) 64 (by norm_num) (pos / 64)]
    have h1 : pos / 64 * 1 = pos / 64 := by ring
    rw [h1]
    have h2 := popcountBlock_eq bits (pos / 64) (pos % 64 + 1)
    have h3 : 64 * (pos / 64) + (pos % 64 + 1) = pos + 1 := by omega
    rw [h3] at h2
    rw [Nat.mul_comm (pos / 64) 64]
    exact h2.symm
  · unfold rankVectorSparseRank rankVecInit
    have hlt : pos / 512 < numBits / 512 + 1 := by
      have := @Nat.div_le_div_right _ _ 512 (Nat.le_of_lt h)
      omega
    rw [getD_range_map _ _ _ _ hlt]
    rw [rankLutVal_eq bits (512 / 64) 512 (by norm_num) (pos / 512)]
    have h2 := popcountBlock_eq bits (pos / 512 * 8) (pos % 512 + 1)
    have h3 : 64 * (pos / 512 * 8) + (pos % 512 + 1) = pos + 1 := by omega
    rw [h3] at h2
    have h4 : pos / 512 * 512 = 64 * (pos / 512 * 8) := by ring
    rw [h4]
    exact h2.symm

/-- Witness for C6 on the word `0b100101` (bits 0, 2 and 5 set), `pos = 4`:
three of the first five positions are set... rank(4) counts bits 0..4. -/
theorem rank_correct_witness :
    rankVectorDenseRank (rankVecInit 64 [37] 6) 4 = countUpto [37] 5 ∧
    rankVectorSparseRank (rankVecInit 512 [37] 6) 4 = countUpto [37] 5 :=
  rank_correct [37] 6 4 (by decide)

/-! ## C4: `bitVector.DistanceToNextSetBit` -/

/-- Shallow embedding of the `bitVector` state: total bit count and the
64-bit words. -/
structure BitVecM where
  numBits : Nat
  bits : List Nat
deriving DecidableEq

/-- Embedding of `bitVector.numWords`: `numBits / 64`, rounded up. -/
def numWordsOf (numBits : Nat) : Nat :=
  if numBits % 64 = 0 then numBits / 64 else numBits / 64 + 1

/-- The word-scanning loop of `DistanceToNextSetBit`; the fuel is the exact
iteration count `numWords - 1 - wordOff` of the Go loop condition
`wordOff < numWords-1`.  `inl` is the early return `distance + tz`, `inr`
the fall-through with the final `wordOff` and distance. -/
def dnsbGo (bits : List Nat) : Nat → Nat → Nat → Sum Nat (Nat × Nat)
  | 0, wordOff, d => Sum.inr (wordOff, d)
  | f + 1, wordOff, d =>
    let t := bits.getD (wordOff + 1) 0
    if 0 < t then Sum.inl (d + trailingZeros64 t)
    else dnsbGo bits f (wordOff + 1) (d + 64)

/-- Shallow embedding of `bitVector.DistanceToNextSetBit`. -/
def distanceToNextSetBit (v : BitVecM) (pos : Nat) : Nat :=
  if v.bits.length ≤ (pos + 1) / 64 then 0
  else if 0 < v.bits.getD ((pos + 1) / 64) 0 >>> ((pos + 1) % 64) then
    1 + trailingZeros64 (v.bits.getD ((pos + 1) / 64) 0 >>> ((pos + 1) % 64))
  else if (pos + 1) / 64 = numWordsOf v.numBits - 1 then v.numBits - pos
  else
    match dnsbGo v.bits (numWordsOf v.numBits - 1 - (pos + 1) / 64) ((pos + 1) / 64)
        (1 + (64 - (pos + 1) % 64)) with
    | Sum.inl r => r
    | Sum.inr (wo, d) =>
      if wo = numWordsOf v.numBits - 1 ∧ v.numBits % 64 ≠ 0
      then d - (64 - v.numBits % 64) else d

theorem getD_mem {l : List Nat} {n : Nat} (h : n < l.length) : l.getD n 0 ∈ l := by
  rw [List.getD_eq_getElem?_getD, List.getElem?_eq_getElem h]
  exact List.getElem_mem h

theorem word_testBit_eq_readBit (bits : List Nat) (wo j : Nat) (hj : j < 64) :
    (bits.getD wo 0).testBit j = readBit bits (64 * wo + j) := by
  unfold readBit
  have h1 : (64 * wo + j) / 64 = wo := by omega
  have h2 : (64 * wo + j) % 64 = j := by omega
  rw [h1, h2]

theorem testBit_ge_64 (w j : Nat) (hw : w < 2 ^ 64) (hj : 64 ≤ j) :
    w.testBit j = false := by
  apply Nat.testBit_lt_two_pow
  calc w < 2 ^ 64 := hw
    _ ≤ 2 ^ j := Nat.pow_le_pow_right (by norm_num) hj

theorem word_zero_of_no_bits (bits : List Nat) (wo : Nat) (hw : bits.getD wo 0 < 2 ^ 64)
    (h : ∀ j, j < 64 → readBit bits (64 * wo + j) = false) : bits.getD wo 0 = 0 := by
  apply Nat.eq_of_testBit_eq
  intro j
  rw [Nat.zero_testBit]
  by_cases hj : j < 64
  · rw [word_testBit_eq_readBit bits wo j hj]
    exact h j hj
  · exact testBit_ge_64 _ _ hw (by omega)

theorem shift_zero_of_no_bits (w b : Nat) (hw : w < 2 ^ 64)
    (h : ∀ j, b ≤ j → j < 64 → w.testBit j = false) : w >>> b = 0 := by
  apply Nat.eq_of_testBit_eq
  intro j
  rw [Nat.zero_testBit, Nat.testBit_shiftRight]
  by_cases hj : b + j < 64
  · exact h (b + j) (by omega) hj
  · exact testBit_ge_64 _ _ hw (by omega)

theorem dnsbGo_all_zero (bits : List Nat) :
    ∀ (f wo d : Nat), (∀ k, wo + 1 ≤ k → k ≤ wo + f → bits.getD k 0 = 0) →
    dnsbGo bits f wo d = Sum.inr (wo + f, d + 64 * f) := by
  intro f
  induction f with
  | zero =>
    intro wo d _
    simp [dnsbGo]
  | succ f ih =>
    intro wo d h
    have hz : bits.getD (wo + 1) 0 = 0 := h (wo + 1) (by omega) (by omega)
    unfold dnsbGo
    rw [hz]
    rw [if_neg (by omega)]
    rw [ih (wo + 1) (d + 64) (fun k hk1 hk2 => h k (by omega) (by omega))]
    have h1 : wo + 1 + f = wo + (f + 1) := by omega
    have h2 : d + 64 + 64 * f = d + 64 * (f + 1) := by omega
    rw [h1, h2]

/-- Counterexample to C4 as stated: `numBits = 64`, the all-zero word, and
`pos = 63` (so no bit at any position above `pos` is set): the function
returns `0`, not `numBits - pos = 1`, because `wordOff = (pos+1)/64` already
equals the word count and the first guard fires. -/
theorem distanceToNextSetBit_counterexample :
    distanceToNextSetBit (BitVecM.mk 64 [0]) 63 = 0 ∧ 64 - 63 = 1 := by
  constructor
  · rfl
  · rfl

/-- C4 (amended: except in the corner case `pos = numBits - 1` with `numBits`
a multiple of 64, where the function returns `0`): for a well-formed bit
vector (word list of length `numWords`, 64-bit words) and `pos < numBits`
such that no bit at a position strictly greater than `pos` is set,
`DistanceToNextSetBit pos` returns `numBits - pos`. -/
theorem distanceToNextSetBit_noFurther (v : BitVecM) (pos : Nat)
    (hlen : v.bits.length = numWordsOf v.numBits)
    (hwords : ∀ w ∈ v.bits, w < 2 ^ 64)
    (hpos : pos < v.numBits)
    (hno : ∀ q, pos < q → readBit v.bits q = false) :
    distanceToNextSetBit v pos =
      if v.numBits % 64 = 0 ∧ pos + 1 = v.numBits then 0 else v.numBits - pos := by
  obtain ⟨numBits, bits⟩ := v
  simp only at hlen hwords hpos hno ⊢
  have hnw : numWordsOf numBits = numBits / 64 + (if numBits % 64 = 0 then 0 else 1) := by
    unfold numWordsOf
    by_cases h : numBits % 64 = 0 <;> simp [h]
  unfold distanceToNextSetBit
  simp only
  by_cases hA : bits.length ≤ (pos + 1) / 64
  · rw [if_pos hA]
    have hcase : numBits % 64 = 0 ∧ pos + 1 = numBits := by
      rw [hnw] at hlen
      by_cases h : numBits % 64 = 0
      · rw [if_pos h] at hlen
        constructor
        · exact h
        · omega
      · rw [if_neg h] at hlen
        omega
    rw [if_pos hcase]
  · rw [if_neg hA]
    have hwo_lt : (pos + 1) / 64 < bits.length := by omega
    have hword_lt : bits.getD ((pos + 1) / 64) 0 < 2 ^ 64 :=
      hwords _ (getD_mem hwo_lt)
    have hshift : bits.getD ((pos + 1) / 64) 0 >>> ((pos + 1) % 64) = 0 := by
      apply shift_zero_of_no_bits _ _ hword_lt
      intro j hj1 hj2
      rw [word_testBit_eq_readBit bits _ j hj2]
      apply hno
      omega
    rw [hshift]
    rw [if_neg (by omega)]
    have hnot_corner : ¬ (numBits % 64 = 0 ∧ pos + 1 = numBits) := by
      intro ⟨h1, h2⟩
      rw [hnw, if_pos h1] at hlen
      omega
    rw [if_neg hnot_corner]
    by_cases hB : (pos + 1) / 64 = numWordsOf numBits - 1
    · rw [if_pos hB]
    · rw [if_neg hB]
      have hwo_le : (pos + 1) / 64 < numWordsOf numBits - 1 := by
        rw [hnw] at hlen ⊢
        by_cases h : numBits % 64 = 0
        · rw [if_pos h] at hlen ⊢
          rw [hnw, if_pos h] at hB
          omega
        · rw [if_neg h] at hlen ⊢
          rw [hnw, if_neg h] at hB
          omega
      have hlater_zero : ∀ k, (pos + 1) / 64 + 1 ≤ k →
          k ≤ (pos + 1) / 64 + (numWordsOf numBits - 1 - (pos + 1) / 64) →
          bits.getD k 0 = 0 := by
        intro k hk1 hk2
        have hk_lt : k < bits.length := by omega
        apply word_zero_of_no_bits bits k (hwords _ (getD_mem hk_lt))
        intro j hj
        apply hno
        omega
      rw [dnsbGo_all_zero bits _ _ _ hlater_zero]
      dsimp only
      have hwo_eq : (pos + 1) / 64 + (numWordsOf numBits - 1 - (pos + 1) / 64) =
          numWordsOf numBits - 1 := by omega
      by_cases hr : numBits % 64 = 0
      · have hcond : ¬ ((pos + 1) / 64 + (numWordsOf numBits - 1 - (pos + 1) / 64) =
            numWordsOf numBits - 1 ∧ numBits % 64 ≠ 0) := by
          intro ⟨_, hc⟩
          exact hc hr
        rw [if_neg hcond]
        rw [hnw, if_pos hr] at hwo_le ⊢
        omega
      · have hcond : ((pos + 1) / 64 + (numWordsOf numBits - 1 - (pos + 1) / 64) =
            numWordsOf numBits - 1 ∧ numBits % 64 ≠ 0) := ⟨hwo_eq, hr⟩
        rw [if_pos hcond]
        rw [hnw, if_neg hr] at hwo_le ⊢
        omega

/-- Witness for the amended C4: `numBits = 10`, single word `5` (bits 0 and 2
set), `pos = 3`: no set bit above 3, and the distance returned is
`10 - 3 = 7`. -/
theorem distanceToNextSetBit_noFurther_witness :
    distanceToNextSetBit (BitVecM.mk 10 [5]) 3 =
      if (10 : Nat) % 64 = 0 ∧ 3 + 1 = 10 then 0 else 10 - 3 := by
  apply distanceToNextSetBit_noFurther (BitVecM.mk 10 [5]) 3
  · rfl
  · intro w hw
    simp at hw
    subst hw
    norm_num
  · norm_num
  · intro q hq
    unfold readBit
    by_cases h : q / 64 = 0
    · rw [h]
      simp only [List.getD_cons_zero]
      have hq64 : q % 64 = q := Nat.mod_eq_of_lt (by omega)
      rw [hq64]
      apply Nat.testBit_lt_two_pow
      calc (5 : Nat) < 2 ^ 3 := by norm_num
        _ ≤ 2 ^ q := Nat.pow_le_pow_right (by norm_num) (by omega)
    · have h1 : [(5 : Nat)].length ≤ q / 64 := by
        simp
        omega
      rw [getD_of_le _ _ _ h1]
      simp

/-! ## C9: marshalled SuRF vectors -/

/-- Modelled from the spec: the `align` helper — round an offset up to the
next multiple of 8 (region boundaries are 8-byte aligned). -/
def align8 (n : Nat) : Nat := (n + 7) / 8 * 8

theorem align8_mod (n : Nat) : align8 n % 8 = 0 := by
  unfold align8
  simp [Nat.mul_mod_left]

theorem le_align8 (n : Nat) : n ≤ align8 n := by
  unfold align8
  omega

theorem align8_lt (n : Nat) : align8 n < n + 8 := by
  unfold align8
  omega

/-- Modelled from the spec: `u64SliceToBytes` — each word becomes eight
little-endian bytes. -/
def u64Bytes : List Nat → List Nat
  | [] => []
  | w :: ws => u64le w ++ u64Bytes ws

/-- Modelled from the spec: `u32SliceToBytes`. -/
def u32Bytes : List Nat → List Nat
  | [] => []
  | w :: ws => u32le w ++ u32Bytes ws

/-- Modelled from the spec: `bytesToU64Slice` — read the bytes back as
little-endian 64-bit words (the byte count is a multiple of 8 wherever the
code calls it). -/
def bytesToU64 : List Nat → List Nat
  | b0 :: b1 :: b2 :: b3 :: b4 :: b5 :: b6 :: b7 :: rest =>
    (b0 + 256 * b1 + 65536 * b2 + 16777216 * b3 + 4294967296 * b4 +
      1099511627776 * b5 + 281474976710656 * b6 + 72057594037927936 * b7) ::
      bytesToU64 rest
  | _ => []

/-- Modelled from the spec: `bytesToU32Slice`. -/
def bytesToU32 : List Nat → List Nat
  | b0 :: b1 :: b2 :: b3 :: rest =>
    (b0 + 256 * b1 + 65536 * b2 + 16777216 * b3) :: bytesToU32 rest
  | _ => []

theorem u64Bytes_length (ws : List Nat) : (u64Bytes ws).length = 8 * ws.length := by
  induction ws with
  | nil => rfl
  | cons w ws ih =>
    unfold u64Bytes
    rw [List.length_append, u64le_length, ih]
    simp
    omega

theorem u32Bytes_length (ws : List Nat) : (u32Bytes ws).length = 4 * ws.length := by
  induction ws with
  | nil => rfl
  | cons w ws ih =>
    unfold u32Bytes
    rw [List.length_append, u32le_length, ih]
    simp
    omega

theorem bytesToU64_u64Bytes (ws : List Nat) (h : ∀ w ∈ ws, w < 2 ^ 64) :
    bytesToU64 (u64Bytes ws) = ws := by
  induction ws with
  | nil => rfl
  | cons w ws ih =>
    have hw : w < 2 ^ 64 := h w (List.mem_cons_self _ _)
    show bytesToU64 (u64le w ++ u64Bytes ws) = w :: ws
    simp only [u64le, List.cons_append, List.nil_append]
    unfold bytesToU64
    congr 1
    · omega
    · exact ih (fun x hx => h x (List.mem_cons_of_mem _ hx))

theorem bytesToU32_u32Bytes (ws : List Nat) (h : ∀ w ∈ ws, w < 2 ^ 32) :
    bytesToU32 (u32Bytes ws) = ws := by
  induction ws with
  | nil => rfl
  | cons w ws ih =>
    have hw : w < 2 ^ 32 := h w (List.mem_cons_self _ _)
    show bytesToU32 (u32le w ++ u32Bytes ws) = w :: ws
    simp only [u32le, List.cons_append, List.nil_append]
    unfold bytesToU32
    congr 1
    · omega
    · exact ih (fun x hx => h x (List.mem_cons_of_mem _ hx))

/-- Shallow embedding of `labelVector`'s serialised state. -/
structure LabelVecM where
  labels : List Nat
deriving DecidableEq

def labelVecRawSize (v : LabelVecM) : Nat := 4 + v.labels.length

/-- Embedding of `labelVector.MarshalSize`. -/
def labelVecMarshalSize (v : LabelVecM) : Nat := align8 (labelVecRawSize v)

/-- Embedding of `labelVector.WriteTo`: the label count as `u32`, the labels,
then zero padding up to `MarshalSize`. -/
def labelVecWriteTo (v : LabelVecM) : List Nat :=
  u32le v.labels.length ++ v.labels ++
    List.replicate (labelVecMarshalSize v - labelVecRawSize v) 0

/-- Embedding of `labelVector.Unmarshal`: reads the count, slices
`buf[4 : 4+l]`, and returns the buffer from the aligned cursor on. -/
def labelVecUnmarshal (buf : List Nat) : LabelVecM × List Nat :=
  (⟨(buf.drop 4).take (readU32 buf)⟩, buf.drop (align8 (4 + readU32 buf)))

theorem labelVec_roundtrip (v : LabelVecM) (h : v.labels.length < 2 ^ 32)
    (suffix : List Nat) :
    labelVecMarshalSize v % 8 = 0 ∧
    (labelVecWriteTo v).length = labelVecMarshalSize v ∧
    labelVecUnmarshal (labelVecWriteTo v ++ suffix) = (v, suffix) := by
  obtain ⟨labels⟩ := v
  have hM : labelVecMarshalSize ⟨labels⟩ = align8 (4 + labels.length) := rfl
  have hA : 4 + labels.length ≤ align8 (4 + labels.length) := le_align8 _
  have hraw : labelVecRawSize ⟨labels⟩ = 4 + labels.length := rfl
  refine ⟨align8_mod _, ?_, ?_⟩
  · unfold labelVecWriteTo
    dsimp only
    rw [List.length_append, List.length_append, u32le_length, List.length_replicate,
      hM, hraw]
    omega
  · set pad := List.replicate (labelVecMarshalSize ⟨labels⟩ - labelVecRawSize ⟨labels⟩) 0
      with hpad
    have hassoc : labelVecWriteTo ⟨labels⟩ ++ suffix =
        u32le labels.length ++ (labels ++ (pad ++ suffix)) := by
      unfold labelVecWriteTo
      simp [List.append_assoc, hpad]
    unfold labelVecUnmarshal
    rw [hassoc]
    rw [readU32_u32le _ _ h]
    rw [List.drop_left' (u32le_length _)]
    rw [List.take_left]
    have hassoc2 : u32le labels.length ++ (labels ++ (pad ++ suffix)) =
        (u32le labels.length ++ (labels ++ pad)) ++ suffix := by
      simp [List.append_assoc]
    have hlen2 : (u32le labels.length ++ (labels ++ pad)).length =
        align8 (4 + labels.length) := by
      rw [List.length_append, List.length_append, u32le_length, List.length_replicate,
        hM, hraw]
      omega
    rw [hassoc2, List.drop_left' hlen2]

/-- Shallow embedding of `valueVector`'s serialised state. -/
structure ValueVecM where
  bytes : List Nat
  valueSize : Nat
deriving DecidableEq

def valueVecRawSize (v : ValueVecM) : Nat := 8 + v.bytes.length

/-- Embedding of `valueVector.MarshalSize`. -/
def valueVecMarshalSize (v : ValueVecM) : Nat := align8 (valueVecRawSize v)

/-- Embedding of `valueVector.WriteTo`: the byte count, the value size, the
bytes, then zero padding up to `MarshalSize`. -/
def valueVecWriteTo (v : ValueVecM) : List Nat :=
  u32le v.bytes.length ++ u32le v.valueSize ++ v.bytes ++
    List.replicate (valueVecMarshalSize v - valueVecRawSize v) 0

/-- Embedding of `valueVector.Unmarshal`. -/
def valueVecUnmarshal (buf : List Nat) : ValueVecM × List Nat :=
  (⟨(buf.drop 8).take (readU32 buf), readU32 (buf.drop 4)⟩,
    buf.drop (align8 (8 + readU32 buf)))

theorem valueVec_roundtrip (v : ValueVecM) (hb : v.bytes.length < 2 ^ 32)
    (hs : v.valueSize < 2 ^ 32) (suffix : List Nat) :
    valueVecMarshalSize v % 8 = 0 ∧
    (valueVecWriteTo v).length = valueVecMarshalSize v ∧
    valueVecUnmarshal (valueVecWriteTo v ++ suffix) = (v, suffix) := by
  obtain ⟨bytes, valueSize⟩ := v
  have hM : valueVecMarshalSize ⟨bytes, valueSize⟩ = align8 (8 + bytes.length) := rfl
  have hA : 8 + bytes.length ≤ align8 (8 + bytes.length) := le_align8 _
  have hraw : valueVecRawSize ⟨bytes, valueSize⟩ = 8 + bytes.length := rfl
  refine ⟨align8_mod _, ?_, ?_⟩
  · unfold valueVecWriteTo
    dsimp only
    simp only [List.length_append, u32le_length, List.length_replicate]
    rw [hM, hraw]
    omega
  · set pad := List.replicate (valueVecMarshalSize ⟨bytes, valueSize⟩ -
      valueVecRawSize ⟨bytes, valueSize⟩) 0 with hpad
    have hassoc : valueVecWriteTo ⟨bytes, valueSize⟩ ++ suffix =
        u32le bytes.length ++ (u32le valueSize ++ (bytes ++ (pad ++ suffix))) := by
      unfold valueVecWriteTo
      simp [List.append_assoc, hpad]
    unfold valueVecUnmarshal
    rw [hassoc]
    rw [readU32_u32le _ _ hb]
    rw [List.drop_left' (u32le_length _)]
    rw [readU32_u32le _ _ hs]
    have hassoc8 : u32le bytes.length ++ (u32le valueSize ++ (bytes ++ (pad ++ suffix))) =
        (u32le bytes.length ++ u32le valueSize) ++ (bytes ++ (pad ++ suffix)) := by
      simp [List.append_assoc]
    have hdrop8 : ((u32le bytes.length ++ u32le valueSize) ++
        (bytes ++ (pad ++ suffix))).drop 8 = bytes ++ (pad ++ suffix) :=
      List.drop_left' (by rw [List.length_append, u32le_length, u32le_length])
    rw [hassoc8, hdrop8]
    rw [List.take_left]
    have hassoc2 : (u32le bytes.length ++ u32le valueSize) ++ (bytes ++ (pad ++ suffix)) =
        ((u32le bytes.length ++ u32le valueSize) ++ (bytes ++ pad)) ++ suffix := by
      simp [List.append_assoc]
    have hlen2 : ((u32le bytes.length ++ u32le valueSize) ++ (bytes ++ pad)).length =
        align8 (8 + bytes.length) := by
      simp only [List.length_append, u32le_length, List.length_replicate, hpad]
      rw [hM, hraw]
      omega
    rw [hassoc2, List.drop_left' hlen2]

/-- Shallow embedding of the `selectVector` state: the merged bit vector, the
total count of ones, and the sampled select look-up table. -/
structure SelVecM where
  numBits : Nat
  bits : List Nat
  numOnes : Nat
  selectLut : List Nat
deriving DecidableEq

/-- Embedding of `selectVector`'s `bitsSize()`: `numWords * 8` bytes. -/
def selVecBitsSize (v : SelVecM) : Nat := numWordsOf v.numBits * 8

/-- Embedding of `selectVector.lutSize()`: `(numOnes/64 + 1) * 4` bytes. -/
def selVecLutSize (v : SelVecM) : Nat := (v.numOnes / 64 + 1) * 4

def selVecRawSize (v : SelVecM) : Nat := 4 + 4 + selVecBitsSize v + selVecLutSize v

/-- Embedding of `selectVector.MarshalSize`. -/
def selVecMarshalSize (v : SelVecM) : Nat := align8 (selVecRawSize v)

/-- Embedding of `selectVector.WriteTo`. -/
def selVecWriteTo (v : SelVecM) : List Nat :=
  u32le v.numBits ++ u32le v.numOnes ++ u64Bytes v.bits ++ u32Bytes v.selectLut ++
    List.replicate (selVecMarshalSize v - selVecRawSize v) 0

/-- Embedding of `selectVector.Unmarshal`: reads `numBits` and `numOnes`,
recomputes the two region sizes from them, slices the regions, and returns
the buffer from the aligned cursor on. -/
def selVecUnmarshal (buf : List Nat) : SelVecM × List Nat :=
  let numBits := readU32 buf
  let numOnes := readU32 (buf.drop 4)
  let bitsSize := numWordsOf numBits * 8
  let lutSize := (numOnes / 64 + 1) * 4
  (⟨numBits, bytesToU64 ((buf.drop 8).take bitsSize), numOnes,
    bytesToU32 ((buf.drop (8 + bitsSize)).take lutSize)⟩,
   buf.drop (align8 (8 + bitsSize + lutSize)))

/-- Well-formedness of a `selectVector` as `Init` produces it and `uint32`
arithmetic requires: the word list matches `numBits`, the look-up table
matches `numOnes`, and all members fit their machine widths. -/
def selVecWF (v : SelVecM) : Prop :=
  v.numBits < 2 ^ 32 ∧ v.numOnes < 2 ^ 32 ∧
  v.bits.length = numWordsOf v.numBits ∧
  v.selectLut.length = v.numOnes / 64 + 1 ∧
  (∀ w ∈ v.bits, w < 2 ^ 64) ∧ (∀ x ∈ v.selectLut, x < 2 ^ 32)

theorem selVec_roundtrip (v : SelVecM) (hwf : selVecWF v) (suffix : List Nat) :
    selVecMarshalSize v % 8 = 0 ∧
    (selVecWriteTo v).length = selVecMarshalSize v ∧
    selVecUnmarshal (selVecWriteTo v ++ suffix) = (v, suffix) := by
  obtain ⟨numBits, bits, numOnes, selectLut⟩ := v
  obtain ⟨h1, h2, h3, h4, h5, h6⟩ := hwf
  dsimp only at h1 h2 h3 h4 h5 h6
  have hbs : selVecBitsSize ⟨numBits, bits, numOnes, selectLut⟩ = numWordsOf numBits * 8 :=
    rfl
  have hls : selVecLutSize ⟨numBits, bits, numOnes, selectLut⟩ = (numOnes / 64 + 1) * 4 :=
    rfl
  have hraw : selVecRawSize ⟨numBits, bits, numOnes, selectLut⟩ =
      8 + numWordsOf numBits * 8 + (numOnes / 64 + 1) * 4 := by
    unfold selVecRawSize
    rw [hbs, hls]
  have hM : selVecMarshalSize ⟨numBits, bits, numOnes, selectLut⟩ =
      align8 (8 + numWordsOf numBits * 8 + (numOnes / 64 + 1) * 4) := by
    unfold selVecMarshalSize
    rw [hraw]
  have hA := le_align8 (8 + numWordsOf numBits * 8 + (numOnes / 64 + 1) * 4)
  refine ⟨align8_mod _, ?_, ?_⟩
  · unfold selVecWriteTo
    dsimp only
    simp only [List.length_append, u32le_length, List.length_replicate,
      u64Bytes_length, u32Bytes_length]
    rw [hM, hraw, h3, h4]
    omega
  · set pad := List.replicate (selVecMarshalSize ⟨numBits, bits, numOnes, selectLut⟩ -
      selVecRawSize ⟨numBits, bits, numOnes, selectLut⟩) 0 with hpad
    have hassoc : selVecWriteTo ⟨numBits, bits, numOnes, selectLut⟩ ++ suffix =
        u32le numBits ++ (u32le numOnes ++ (u64Bytes bits ++
          (u32Bytes selectLut ++ (pad ++ suffix)))) := by
      unfold selVecWriteTo
      simp [List.append_assoc, hpad]
    unfold selVecUnmarshal
    rw [hassoc]
    rw [readU32_u32le _ _ h1]
    rw [List.drop_left' (u32le_length _)]
    rw [readU32_u32le _ _ h2]
    dsimp only
    have hd8 : (u32le numBits ++ (u32le numOnes ++ (u64Bytes bits ++
        (u32Bytes selectLut ++ (pad ++ suffix))))).drop 8 =
        u64Bytes bits ++ (u32Bytes selectLut ++ (pad ++ suffix)) := by
      have he : u32le numBits ++ (u32le numOnes ++ (u64Bytes bits ++
          (u32Bytes selectLut ++ (pad ++ suffix)))) =
          (u32le numBits ++ u32le numOnes) ++ (u64Bytes bits ++
            (u32Bytes selectLut ++ (pad ++ suffix))) := by
        simp [List.append_assoc]
      rw [he]
      exact List.drop_left' (by rw [List.length_append, u32le_length, u32le_length])
    rw [hd8]
    have htb : (u64Bytes bits ++ (u32Bytes selectLut ++ (pad ++ suffix))).take
        (numWordsOf numBits * 8) = u64Bytes bits :=
      List.take_left' (by rw [u64Bytes_length, h3]; omega)
    rw [htb, bytesToU64_u64Bytes bits h5]
    have hdb : (u64Bytes bits ++ (u32Bytes selectLut ++ (pad ++ suffix))).drop
        (numWordsOf numBits * 8) = u32Bytes selectLut ++ (pad ++ suffix) :=
      List.drop_left' (by rw [u64Bytes_length, h3]; omega)
    have hd8b : (u32le numBits ++ (u32le numOnes ++ (u64Bytes bits ++
        (u32Bytes selectLut ++ (pad ++ suffix))))).drop (8 + numWordsOf numBits * 8) =
        u32Bytes selectLut ++ (pad ++ suffix) := by
      rw [← List.drop_drop, hd8, hdb]
    rw [hd8b]
    have htl : (u32Bytes selectLut ++ (pad ++ suffix)).take ((numOnes / 64 + 1) * 4) =
        u32Bytes selectLut :=
      List.take_left' (by rw [u32Bytes_length, h4]; omega)
    rw [htl, bytesToU32_u32Bytes selectLut h6]
    have hfinal : (u32le numBits ++ (u32le numOnes ++ (u64Bytes bits ++
        (u32Bytes selectLut ++ (pad ++ suffix))))).drop
        (align8 (8 + numWordsOf numBits * 8 + (numOnes / 64 + 1) * 4)) = suffix := by
      have he : u32le numBits ++ (u32le numOnes ++ (u64Bytes bits ++
          (u32Bytes selectLut ++ (pad ++ suffix)))) =
          (u32le numBits ++ (u32le numOnes ++ (u64Bytes bits ++
            (u32Bytes selectLut ++ pad)))) ++ suffix := by
        simp [List.append_assoc]
      rw [he]
      apply List.drop_left'
      simp only [List.length_append, u32le_length, List.length_replicate,
        u64Bytes_length, u32Bytes_length, hpad]
      rw [hM, hraw, h3, h4]
      omega
    rw [hfinal]

/-- Embedding of `rankVector.lutSize()`: `(numBits/blockSize + 1) * 4`. -/
def rankVecLutSize (v : RankVecM) : Nat := (v.numBits / v.blockSize + 1) * 4

def rankVecBitsSize (v : RankVecM) : Nat := numWordsOf v.numBits * 8

def rankVecRawSize (v : RankVecM) : Nat := 4 + 4 + rankVecBitsSize v + rankVecLutSize v

/-- Embedding of `rankVector.MarshalSize`. -/
def rankVecMarshalSize (v : RankVecM) : Nat := align8 (rankVecRawSize v)

/-- Embedding of `rankVector.WriteTo`. -/
def rankVecWriteTo (v : RankVecM) : List Nat :=
  u32le v.numBits ++ u32le v.blockSize ++ u64Bytes v.bits ++ u32Bytes v.rankLut ++
    List.replicate (rankVecMarshalSize v - rankVecRawSize v) 0

/-- Embedding of `rankVector.Unmarshal`. -/
def rankVecUnmarshal (buf : List Nat) : RankVecM × List Nat :=
  let numBits := readU32 buf
  let blockSize := readU32 (buf.drop 4)
  let bitsSize := numWordsOf numBits * 8
  let lutSize := (numBits / blockSize + 1) * 4
  (⟨numBits, bytesToU64 ((buf.drop 8).take bitsSize), blockSize,
    bytesToU32 ((buf.drop (8 + bitsSize)).take lutSize)⟩,
   buf.drop (align8 (8 + bitsSize + lutSize)))

/-- Well-formedness of a `rankVector` as `init` produces it. -/
def rankVecWF (v : RankVecM) : Prop :=
  v.numBits < 2 ^ 32 ∧ v.blockSize < 2 ^ 32 ∧
  v.bits.length = numWordsOf v.numBits ∧
  v.rankLut.length = v.numBits / v.blockSize + 1 ∧
  (∀ w ∈ v.bits, w < 2 ^ 64) ∧ (∀ x ∈ v.rankLut, x < 2 ^ 32)

theorem rankVec_roundtrip (v : RankVecM) (hwf : rankVecWF v) (suffix : List Nat) :
    rankVecMarshalSize v % 8 = 0 ∧
    (rankVecWriteTo v).length = rankVecMarshalSize v ∧
    rankVecUnmarshal (rankVecWriteTo v ++ suffix) = (v, suffix) := by
  obtain ⟨numBits, bits, blockSize, rankLut⟩ := v
  obtain ⟨h1, h2, h3, h4, h5, h6⟩ := hwf
  dsimp only at h1 h2 h3 h4 h5 h6
  have hraw : rankVecRawSize ⟨numBits, bits, blockSize, rankLut⟩ =
      8 + numWordsOf numBits * 8 + (numBits / blockSize + 1) * 4 := by
    unfold rankVecRawSize rankVecBitsSize rankVecLutSize
    dsimp only
  have hM : rankVecMarshalSize ⟨numBits, bits, blockSize, rankLut⟩ =
      align8 (8 + numWordsOf numBits * 8 + (numBits / blockSize + 1) * 4) := by
    unfold rankVecMarshalSize
    rw [hraw]
  have hA := le_align8 (8 + numWordsOf numBits * 8 + (numBits / blockSize + 1) * 4)
  refine ⟨align8_mod _, ?_, ?_⟩
  · unfold rankVecWriteTo
    dsimp only
    simp only [List.length_append, u32le_length, List.length_replicate,
      u64Bytes_length, u32Bytes_length]
    rw [hM, hraw, h3, h4]
    omega
  · set pad := List.replicate (rankVecMarshalSize ⟨numBits, bits, blockSize, rankLut⟩ -
      rankVecRawSize ⟨numBits, bits, blockSize, rankLut⟩) 0 with hpad
    have hassoc : rankVecWriteTo ⟨numBits, bits, blockSize, rankLut⟩ ++ suffix =
        u32le numBits ++ (u32le blockSize ++ (u64Bytes bits ++
          (u32Bytes rankLut ++ (pad ++ suffix)))) := by
      unfold rankVecWriteTo
      simp [List.append_assoc, hpad]
    unfold rankVecUnmarshal
    rw [hassoc]
    rw [readU32_u32le _ _ h1]
    rw [List.drop_left' (u32le_length _)]
    rw [readU32_u32le _ _ h2]
    dsimp only
    have hd8 : (u32le numBits ++ (u32le blockSize ++ (u64Bytes bits ++
        (u32Bytes rankLut ++ (pad ++ suffix))))).drop 8 =
        u64Bytes bits ++ (u32Bytes rankLut ++ (pad ++ suffix)) := by
      have he : u32le numBits ++ (u32le blockSize ++ (u64Bytes bits ++
          (u32Bytes rankLut ++ (pad ++ suffix)))) =
          (u32le numBits ++ u32le blockSize) ++ (u64Bytes bits ++
            (u32Bytes rankLut ++ (pad ++ suffix))) := by
        simp [List.append_assoc]
      rw [he]
      exact List.drop_left' (by rw [List.length_append, u32le_length, u32le_length])
    rw [hd8]
    have htb : (u64Bytes bits ++ (u32Bytes rankLut ++ (pad ++ suffix))).take
        (numWordsOf numBits * 8) = u64Bytes bits :=
      List.take_left' (by rw [u64Bytes_length, h3]; omega)
    rw [htb, bytesToU64_u64Bytes bits h5]
    have hdb : (u64Bytes bits ++ (u32Bytes rankLut ++ (pad ++ suffix))).drop
        (numWordsOf numBits * 8) = u32Bytes rankLut ++ (pad ++ suffix) :=
      List.drop_left' (by rw [u64Bytes_length, h3]; omega)
    have hd8b : (u32le numBits ++ (u32le blockSize ++ (u64Bytes bits ++
        (u32Bytes rankLut ++ (pad ++ suffix))))).drop (8 + numWordsOf numBits * 8) =
        u32Bytes rankLut ++ (pad ++ suffix) := by
      rw [← List.drop_drop, hd8, hdb]
    rw [hd8b]
    have htl : (u32Bytes rankLut ++ (pad ++ suffix)).take ((numBits / blockSize + 1) * 4) =
        u32Bytes rankLut :=
      List.take_left' (by rw [u32Bytes_length, h4]; omega)
    rw [htl, bytesToU32_u32Bytes rankLut h6]
    have hfinal : (u32le numBits ++ (u32le blockSize ++ (u64Bytes bits ++
        (u32Bytes rankLut ++ (pad ++ suffix))))).drop
        (align8 (8 + numWordsOf numBits * 8 + (numBits / blockSize + 1) * 4)) = suffix := by
      have he : u32le numBits ++ (u32le blockSize ++ (u64Bytes bits ++
          (u32Bytes rankLut ++ (pad ++ suffix)))) =
          (u32le numBits ++ (u32le blockSize ++ (u64Bytes bits ++
            (u32Bytes rankLut ++ pad)))) ++ suffix := by
        simp [List.append_assoc]
      rw [he]
      apply List.drop_left'
      simp only [List.length_append, u32le_length, List.length_replicate,
        u64Bytes_length, u32Bytes_length, hpad]
      rw [hM, hraw, h3, h4]
      omega
    rw [hfinal]

/-- C9: for each serialisable SuRF vector — `labelVector`, `valueVector`,
`selectVector`, `rankVector` — `MarshalSize()` is a multiple of 8, `WriteTo`
writes exactly `MarshalSize()` bytes with a zero-padded tail, and `Unmarshal`
on those bytes followed by any suffix reconstructs equal observable state and
returns exactly that suffix. -/
theorem marshalled_vectors_roundtrip
    (lv : LabelVecM) (vv : ValueVecM) (sv : SelVecM) (rv : RankVecM)
    (hl : lv.labels.length < 2 ^ 32)
    (hvb : vv.bytes.length < 2 ^ 32) (hvs : vv.valueSize < 2 ^ 32)
    (hsw : selVecWF sv) (hrw : rankVecWF rv)
    (s1 s2 s3 s4 : List Nat) :
    (labelVecMarshalSize lv % 8 = 0 ∧
      (labelVecWriteTo lv).length = labelVecMarshalSize lv ∧
      labelVecUnmarshal (labelVecWriteTo lv ++ s1) = (lv, s1)) ∧
    (valueVecMarshalSize vv % 8 = 0 ∧
      (valueVecWriteTo vv).length = valueVecMarshalSize vv ∧
      valueVecUnmarshal (valueVecWriteTo vv ++ s2) = (vv, s2)) ∧
    (selVecMarshalSize sv % 8 = 0 ∧
      (selVecWriteTo sv).length = selVecMarshalSize sv ∧
      selVecUnmarshal (selVecWriteTo sv ++ s3) = (sv, s3)) ∧
    (rankVecMarshalSize rv % 8 = 0 ∧
      (rankVecWriteTo rv).length = rankVecMarshalSize rv ∧
      rankVecUnmarshal (rankVecWriteTo rv ++ s4) = (rv, s4)) :=
  ⟨labelVec_roundtrip lv hl s1, valueVec_roundtrip vv hvb hvs s2,
   selVec_roundtrip sv hsw s3, rankVec_roundtrip rv hrw s4⟩

/-- Witness for C9: concrete vectors round-trip through marshalling with a
non-empty suffix. -/
theorem marshalled_vectors_roundtrip_witness :
    labelVecUnmarshal (labelVecWriteTo ⟨[1, 2, 3]⟩ ++ [7]) = (⟨[1, 2, 3]⟩, [7]) ∧
    selVecUnmarshal (selVecWriteTo ⟨2, [2], 1, [1]⟩ ++ [9]) = (⟨2, [2], 1, [1]⟩, [9]) ∧
    rankVecUnmarshal (rankVecWriteTo ⟨2, [2], 64, [0]⟩ ++ [4]) = (⟨2, [2], 64, [0]⟩, [4]) := by
  have h := marshalled_vectors_roundtrip ⟨[1, 2, 3]⟩ ⟨[9, 8], 2⟩ ⟨2, [2], 1, [1]⟩
    ⟨2, [2], 64, [0]⟩ (by decide) (by decide) (by decide)
    (by unfold selVecWF; decide)
    (by unfold rankVecWF; decide)
    [7] [0] [9] [4]
  exact ⟨h.1.2.2, h.2.2.1.2.2, h.2.2.2.2.2⟩

/-! ## C5: `selectVector.Init` / `selectVector.Select` -/

theorem popcount64_le (w : Nat) : popcount64 w ≤ 64 := by
  unfold popcount64 countBits
  have h : List.countP (fun i => w.testBit i) (List.range 64) ≤ (List.range 64).length := List.countP_le_length _
  rw [List.length_range] at h
  exact h

theorem countBits_add (x b m : Nat) :
    countBits x (b + m) = countBits x b + (List.range m).countP (fun i => x.testBit (b + i)) := by
  unfold countBits
  rw [List.range_add, List.countP_append, List.countP_map]
  rfl

theorem countBits_split (x b n : Nat) (h : b ≤ n) :
    countBits x n = countBits x b + (List.range (n - b)).countP (fun i => x.testBit (b + i)) := by
  have hn : b + (n - b) = n := by omega
  conv_lhs => rw [← hn]
  rw [countBits_add]

theorem mask_testBit (x b i : Nat) :
    ((x >>> b) <<< b).testBit i = (decide (b ≤ i) && x.testBit i) := by
  rw [Nat.testBit_shiftLeft]
  by_cases h : b ≤ i
  · have h1 : decide (i ≥ b) = true := by simp [h]
    rw [h1, Bool.true_and, Bool.true_and, Nat.testBit_shiftRight]
    congr 1
    omega
  · have h1 : decide (i ≥ b) = false := by simp; omega
    rw [h1, Bool.false_and, Bool.false_and]

theorem mask_le (x b : Nat) : (x >>> b) <<< b ≤ x := by
  rw [Nat.shiftLeft_eq, Nat.shiftRight_eq_div_pow]
  calc x / 2 ^ b * 2 ^ b ≤ x := Nat.div_mul_le_self x (2 ^ b)

theorem countBits_mask (x b n : Nat) (hbn : b ≤ n) :
    countBits ((x >>> b) <<< b) n + countBits x b = countBits x n := by
  have hzero : countBits ((x >>> b) <<< b) b = 0 := by
    unfold countBits
    rw [List.countP_eq_zero]
    intro i hi
    have hib : i < b := List.mem_range.mp hi
    simp only [mask_testBit]
    simp
    omega
  rw [countBits_split ((x >>> b) <<< b) b n hbn, hzero]
  rw [countBits_split x b n hbn]
  have hseg : (List.range (n - b)).countP (fun i => ((x >>> b) <<< b).testBit (b + i)) =
      (List.range (n - b)).countP (fun i => x.testBit (b + i)) := by
    apply List.countP_congr
    intro i _
    simp only [mask_testBit]
    have : decide (b ≤ b + i) = true := by simp
    rw [this, Bool.true_and]
  omega

theorem getD_append_left {l : List Nat} (x : List Nat) {j : Nat} (h : j < l.length) :
    (l ++ x).getD j 0 = l.getD j 0 := by
  rw [List.getD_eq_getElem?_getD, List.getD_eq_getElem?_getD, List.getElem?_append_left h]

theorem getD_append_at (l : List Nat) (x : Nat) :
    (l ++ [x]).getD l.length 0 = x := by
  rw [List.getD_eq_getElem?_getD]
  rw [List.getElem?_append_right (Nat.le_refl _)]
  simp

/-- The word-scanning loop of `selectVector.Select`: `rem` is the slice of
the word array after `wordOff` (the Go loop reads `v.bits[wordOff]` after
incrementing; an out-of-range index panics, modelled as `none`). -/
def selLoop : List Nat → Nat → Nat → Nat → Option Nat
  | rem, wordOff, w, rankLeft =>
    if popcount64 w < rankLeft then
      match rem with
      | [] => none
      | w2 :: rem2 => selLoop rem2 (wordOff + 1) w2 (rankLeft - popcount64 w)
    else some (wordOff * 64 + select64 w rankLeft)

theorem getD_eq_getElem {l : List Nat} {n : Nat} (h : n < l.length) :
    l.getD n 0 = l[n] := by
  rw [List.getD_eq_getElem?_getD, List.getElem?_eq_getElem h]
  rfl

/-- When the masked current word already holds `rankLeft` ones, `selLoop`
returns within it, and the returned position is the global position whose
one-count below it is exactly `rankLeft - 1` past the scan start. -/
theorem selLoop_found (bits : List Nat) (wordOff b rankLeft : Nat) (rem : List Nat)
    (hw : ∀ x ∈ bits, x < 2 ^ 64) (hb : b ≤ 64) (hr : 1 ≤ rankLeft)
    (hwo : wordOff < bits.length)
    (hge : rankLeft ≤ popcount64 ((bits.getD wordOff 0 >>> b) <<< b)) :
    ∃ p, selLoop rem wordOff ((bits.getD wordOff 0 >>> b) <<< b) rankLeft = some p ∧
      readBit bits p = true ∧
      countUpto bits p = countUpto bits (64 * wordOff + b) + rankLeft - 1 := by
  set word := bits.getD wordOff 0 with hword
  set w := (word >>> b) <<< b with hwdef
  have hword_lt : word < 2 ^ 64 := hw _ (getD_mem hwo)
  have hw_lt : w < 2 ^ 64 := Nat.lt_of_le_of_lt (mask_le word b) hword_lt
  obtain ⟨htb, hcb⟩ := nthOneAux_spec 64 w rankLeft hr hge
  set p' := nthOneAux 64 w rankLeft with hp'
  have hmask_p' : w.testBit p' = (decide (b ≤ p') && word.testBit p') := mask_testBit word b p'
  have hble : b ≤ p' := by
    by_contra hc
    rw [hmask_p'] at htb
    simp at htb
    omega
  have htword : word.testBit p' = true := by
    rw [hmask_p'] at htb
    simp at htb
    exact htb.2
  have hp64 : p' < 64 := by
    by_contra hc
    rw [testBit_ge_64 w p' hw_lt (by omega)] at htb
    exact Bool.false_ne_true htb
  have hmask2 : countBits w p' + countBits word b = countBits word p' :=
    countBits_mask word b p' hble
  have hsplit_b : countUpto bits (64 * wordOff + b) =
      countUpto bits (64 * wordOff) + countBits word b :=
    countUpto_word_split bits wordOff b hb
  have hsplit_p : countUpto bits (64 * wordOff + p') =
      countUpto bits (64 * wordOff) + countBits word p' :=
    countUpto_word_split bits wordOff p' (by omega)
  refine ⟨wordOff * 64 + select64 w rankLeft, ?_, ?_, ?_⟩
  · unfold selLoop
    rw [if_neg (by omega)]
  · have : wordOff * 64 + select64 w rankLeft = 64 * wordOff + p' := by
      unfold select64
      rw [← hp']
      ring
    rw [this, ← word_testBit_eq_readBit bits wordOff p' hp64, ← hword]
    exact htword
  · have hpos : wordOff * 64 + select64 w rankLeft = 64 * wordOff + p' := by
      unfold select64
      rw [← hp']
      ring
    rw [hpos, hsplit_p, hsplit_b]
    omega

/-- The scan lemma for `selLoop`: starting from global bit position
`64*wordOff + b` with `rankLeft` ones still wanted, and enough ones in the
array at or after the start, the loop finds the position whose one-count is
exactly `rankLeft - 1` past the start count. -/
theorem selLoop_spec :
    ∀ (rem : List Nat) (bits : List Nat) (wordOff b rankLeft : Nat),
    rem = bits.drop (wordOff + 1) →
    (∀ x ∈ bits, x < 2 ^ 64) →
    b ≤ 64 →
    1 ≤ rankLeft →
    countUpto bits (64 * wordOff + b) + rankLeft ≤ countUpto bits (64 * bits.length) →
    wordOff < bits.length →
    ∃ p, selLoop rem wordOff ((bits.getD wordOff 0 >>> b) <<< b) rankLeft = some p ∧
      readBit bits p = true ∧
      countUpto bits p = countUpto bits (64 * wordOff + b) + rankLeft - 1 := by
  intro rem
  induction rem with
  | nil =>
    intro bits wordOff b rankLeft hrem hw hb hr hEnough hwo
    by_cases hge : rankLeft ≤ popcount64 ((bits.getD wordOff 0 >>> b) <<< b)
    · exact selLoop_found bits wordOff b rankLeft [] hw hb hr hwo hge
    · exfalso
      -- the loop would advance, but there are no words left; show that the
      -- "enough ones" hypothesis contradicts rem = []
      have hlen : bits.length ≤ wordOff + 1 := by
        by_contra hc
        have hne : bits.drop (wordOff + 1) ≠ [] := by
          rw [← List.length_pos_iff_ne_nil, List.length_drop]
          omega
        exact hne hrem.symm
      set word := bits.getD wordOff 0 with hword
      have hword_lt : word < 2 ^ 64 := hw _ (getD_mem hwo)
      have heq1 : countUpto bits (64 * wordOff + 64) =
          countUpto bits (64 * wordOff + b) +
            popcount64 ((word >>> b) <<< b) := by
        have h1 : countUpto bits (64 * wordOff + 64) =
            countUpto bits (64 * wordOff) + countBits word 64 :=
          countUpto_word_split bits wordOff 64 (by omega)
        have h2 : countUpto bits (64 * wordOff + b) =
            countUpto bits (64 * wordOff) + countBits word b :=
          countUpto_word_split bits wordOff b hb
        have h3 : countBits ((word >>> b) <<< b) 64 + countBits word b =
            countBits word 64 := countBits_mask word b 64 hb
        unfold popcount64
        omega
      have hcap : countUpto bits (64 * bits.length) ≤ countUpto bits (64 * wordOff + 64) := by
        apply countUpto_mono
        omega
      omega
  | cons w2 rem2 ih =>
    intro bits wordOff b rankLeft hrem hw hb hr hEnough hwo
    by_cases hge : rankLeft ≤ popcount64 ((bits.getD wordOff 0 >>> b) <<< b)
    · exact selLoop_found bits wordOff b rankLeft (w2 :: rem2) hw hb hr hwo hge
    · set word := bits.getD wordOff 0 with hword
      have hword_lt : word < 2 ^ 64 := hw _ (getD_mem hwo)
      have heq1 : countUpto bits (64 * wordOff + 64) =
          countUpto bits (64 * wordOff + b) + popcount64 ((word >>> b) <<< b) := by
        have h1 : countUpto bits (64 * wordOff + 64) =
            countUpto bits (64 * wordOff) + countBits word 64 :=
          countUpto_word_split bits wordOff 64 (by omega)
        have h2 : countUpto bits (64 * wordOff + b) =
            countUpto bits (64 * wordOff) + countBits word b :=
          countUpto_word_split bits wordOff b hb
        have h3 : countBits ((word >>> b) <<< b) 64 + countBits word b =
            countBits word 64 := countBits_mask word b 64 hb
        unfold popcount64
        omega
      have hwo1 : wordOff + 1 < bits.length := by
        by_contra hc
        have hcap : countUpto bits (64 * bits.length) ≤
            countUpto bits (64 * wordOff + 64) := by
          apply countUpto_mono
          omega
        omega
      have hdropc : bits.drop (wordOff + 1) = bits[wordOff + 1] :: bits.drop (wordOff + 2) :=
        List.drop_eq_getElem_cons hwo1
      rw [hdropc] at hrem
      injection hrem with hw2 hrem2
      have hw2' : w2 = (bits.getD (wordOff + 1) 0 >>> 0) <<< 0 := by
        rw [Nat.shiftRight_zero, Nat.shiftLeft_zero, getD_eq_getElem hwo1, hw2]
      have hEnough' : countUpto bits (64 * (wordOff + 1) + 0) + (rankLeft -
          popcount64 ((word >>> b) <<< b)) ≤ countUpto bits (64 * bits.length) := by
        have h64 : 64 * (wordOff + 1) + 0 = 64 * wordOff + 64 := by ring
        rw [h64, heq1]
        omega
      obtain ⟨p, hsel, hread, hcount⟩ := ih bits (wordOff + 1) 0
        (rankLeft - popcount64 ((word >>> b) <<< b)) hrem2 hw (by omega) (by omega)
        hEnough' hwo1
      refine ⟨p, ?_, hread, ?_⟩
      · unfold selLoop
        rw [if_pos (by omega)]
        dsimp only
        rw [hw2']
        exact hsel
      · rw [hcount]
        have h64 : 64 * (wordOff + 1) + 0 = 64 * wordOff + 64 := by ring
        rw [h64, heq1]
        omega

/-- The inner `for sampledOnes <= onesUptoWord+ones` loop of
`selectVector.Init`, processing one word: appends the position of every
64th one that falls inside word `i`.  The fuel bounds the iteration count;
any fuel with `onesUpto + popcount64 w < sampledOnes + 64*fuel` is exact. -/
def selInitWordAux : Nat → Nat → Nat → List Nat → Nat → Nat → List Nat × Nat
  | 0, _, _, lut, sampledOnes, _ => (lut, sampledOnes)
  | f + 1, w, i, lut, sampledOnes, onesUpto =>
    if sampledOnes ≤ onesUpto + popcount64 w then
      selInitWordAux f w i (lut ++ [i * 64 + select64 w (sampledOnes - onesUpto)])
        (sampledOnes + 64) onesUpto
    else (lut, sampledOnes)

/-- The word loop of `selectVector.Init`: `ws` is the tail of the word array
from index `i` on; carries the lut, `sampledOnes` and `onesUptoWord`, and
returns the final lut and the total one count (`numOnes`). -/
def selInitGo : List Nat → Nat → List Nat → Nat → Nat → List Nat × Nat
  | [], _, lut, _, onesUpto => (lut, onesUpto)
  | w :: ws, i, lut, sampledOnes, onesUpto =>
    selInitGo ws (i + 1) (selInitWordAux 65 w i lut sampledOnes onesUpto).1
      (selInitWordAux 65 w i lut sampledOnes onesUpto).2 (onesUpto + popcount64 w)

/-- Shallow embedding of `selectVector.Init` on the merged bit vector: lut
starts as `[0]`, the first sample rank is 64, and word popcounts accumulate
into `numOnes`. -/
def selectInit (bits : List Nat) (numBits : Nat) : SelVecM :=
  ⟨numBits, bits, (selInitGo bits 0 [0] 64 0).2, (selInitGo bits 0 [0] 64 0).1⟩

theorem selInitWordAux_spec :
    ∀ (f w i : Nat) (lut : List Nat) (S U : Nat),
    U + popcount64 w < S + 64 * f →
    U < S →
    S ≤ U + popcount64 w + 64 →
    S = 64 * lut.length →
    (selInitWordAux f w i lut S U).2 = 64 * (selInitWordAux f w i lut S U).1.length ∧
    U + popcount64 w < (selInitWordAux f w i lut S U).2 ∧
    (selInitWordAux f w i lut S U).2 ≤ U + popcount64 w + 64 ∧
    lut.length ≤ (selInitWordAux f w i lut S U).1.length ∧
    (∀ j, j < lut.length → (selInitWordAux f w i lut S U).1.getD j 0 = lut.getD j 0) ∧
    (∀ j, lut.length ≤ j → j < (selInitWordAux f w i lut S U).1.length →
      (selInitWordAux f w i lut S U).1.getD j 0 = i * 64 + select64 w (64 * j - U) ∧
      1 ≤ 64 * j - U ∧ 64 * j - U ≤ popcount64 w) := by
  intro f
  induction f with
  | zero =>
    intro w i lut S U hfuel hUS hSb hS
    have heq : selInitWordAux 0 w i lut S U = (lut, S) := rfl
    rw [heq]
    dsimp only
    refine ⟨hS, by omega, hSb, Nat.le_refl _, fun j _ => rfl, ?_⟩
    intro j hj1 hj2
    omega
  | succ f ih =>
    intro w i lut S U hfuel hUS hSb hS
    by_cases hc : S ≤ U + popcount64 w
    · have heq : selInitWordAux (f + 1) w i lut S U =
          selInitWordAux f w i (lut ++ [i * 64 + select64 w (S - U)]) (S + 64) U := by
        show (if S ≤ U + popcount64 w then
            selInitWordAux f w i (lut ++ [i * 64 + select64 w (S - U)]) (S + 64) U
          else (lut, S)) =
          selInitWordAux f w i (lut ++ [i * 64 + select64 w (S - U)]) (S + 64) U
        rw [if_pos hc]
      rw [heq]
      have hlen' : (lut ++ [i * 64 + select64 w (S - U)]).length = lut.length + 1 := by
        simp
      obtain ⟨c1, c2, c3, c4, c5, c6⟩ := ih w i (lut ++ [i * 64 + select64 w (S - U)])
        (S + 64) U (by omega) (by omega) (by omega) (by rw [hlen']; omega)
      refine ⟨c1, c2, c3, by rw [hlen'] at c4; omega, ?_, ?_⟩
      · intro j hj
        rw [c5 j (by rw [hlen']; omega)]
        exact getD_append_left _ hj
      · intro j hj1 hj2
        by_cases hje : j = lut.length
        · subst hje
          rw [c5 lut.length (by rw [hlen']; omega)]
          refine ⟨?_, by omega, by omega⟩
          rw [getD_append_at]
          have : S - U = 64 * lut.length - U := by rw [hS]
          rw [← this]
        · exact c6 j (by rw [hlen']; omega) hj2
    · have heq : selInitWordAux (f + 1) w i lut S U = (lut, S) := by
        show (if S ≤ U + popcount64 w then
            selInitWordAux f w i (lut ++ [i * 64 + select64 w (S - U)]) (S + 64) U
          else (lut, S)) = (lut, S)
        rw [if_neg hc]
      rw [heq]
      dsimp only
      refine ⟨hS, by omega, hSb, Nat.le_refl _, fun j _ => rfl, ?_⟩
      intro j hj1 hj2
      omega

theorem countUpto_succ (bits : List Nat) (p : Nat) :
    countUpto bits (p + 1) = countUpto bits p + (if readBit bits p then 1 else 0) := by
  unfold countUpto
  rw [List.range_succ, List.countP_append]
  by_cases h : readBit bits p <;> simp [h]

theorem countUpto_succ_true (bits : List Nat) (p : Nat) (h : readBit bits p = true) :
    countUpto bits (p + 1) = countUpto bits p + 1 := by
  rw [countUpto_succ, h]
  rfl

theorem selInitGo_spec :
    ∀ (ws : List Nat) (bits : List Nat) (i : Nat) (lut : List Nat) (S U : Nat),
    ws = bits.drop i →
    (∀ x ∈ bits, x < 2 ^ 64) →
    U = countUpto bits (64 * i) →
    U < S → S ≤ U + 64 → S = 64 * lut.length →
    (∀ j, 1 ≤ j → j < lut.length → readBit bits (lut.getD j 0) = true ∧
      countUpto bits (lut.getD j 0) = 64 * j - 1) →
    (selInitGo ws i lut S U).2 = countUpto bits (64 * bits.length) ∧
    (selInitGo ws i lut S U).1.length = countUpto bits (64 * bits.length) / 64 + 1 ∧
    (∀ j, j < lut.length → (selInitGo ws i lut S U).1.getD j 0 = lut.getD j 0) ∧
    (∀ j, 1 ≤ j → j < (selInitGo ws i lut S U).1.length →
      readBit bits ((selInitGo ws i lut S U).1.getD j 0) = true ∧
      countUpto bits ((selInitGo ws i lut S U).1.getD j 0) = 64 * j - 1) := by
  intro ws
  induction ws with
  | nil =>
    intro bits i lut S U hws hw hU hUS hSb hS hsamp
    have hlen : bits.length ≤ i := by
      by_contra hc
      have hne : bits.drop i ≠ [] := by
        rw [← List.length_pos_iff_ne_nil, List.length_drop]
        omega
      exact hne hws.symm
    have hcap : countUpto bits (64 * i) = countUpto bits (64 * bits.length) := by
      rw [countUpto_cap bits (64 * i) (by omega)]
    have heq : selInitGo [] i lut S U = (lut, U) := rfl
    rw [heq]
    dsimp only
    refine ⟨by omega, by omega, fun j _ => rfl, ?_⟩
    intro j hj1 hj2
    exact hsamp j hj1 hj2
  | cons w ws2 ih =>
    intro bits i lut S U hws hw hU hUS hSb hS hsamp
    have hi_lt : i < bits.length := by
      by_contra hc
      have : bits.drop i = [] := List.drop_eq_nil_of_le (by omega)
      rw [this] at hws
      exact List.cons_ne_nil w ws2 hws
    have hdropc : bits.drop i = bits[i] :: bits.drop (i + 1) :=
      List.drop_eq_getElem_cons hi_lt
    rw [hdropc] at hws
    injection hws with hweq hws2
    have hwgetD : w = bits.getD i 0 := by
      rw [getD_eq_getElem hi_lt, hweq]
    have hw_lt : w < 2 ^ 64 := by
      rw [hweq]
      exact hw _ (List.getElem_mem hi_lt)
    have hU1 : U + popcount64 w = countUpto bits (64 * (i + 1)) := by
      have hsp : countUpto bits (64 * i + 64) =
          countUpto bits (64 * i) + countBits (bits.getD i 0) 64 :=
        countUpto_word_split bits i 64 (Nat.le_refl _)
      have h64 : 64 * (i + 1) = 64 * i + 64 := by ring
      rw [h64, hsp, ← hwgetD, ← hU]
      rfl
    obtain ⟨w1, w2, w3, w4, w5, w6⟩ := selInitWordAux_spec 65 w i lut S U
      (by have := popcount64_le w; omega) hUS (by omega) hS
    have hsamp' : ∀ j, 1 ≤ j → j < (selInitWordAux 65 w i lut S U).1.length →
        readBit bits ((selInitWordAux 65 w i lut S U).1.getD j 0) = true ∧
        countUpto bits ((selInitWordAux 65 w i lut S U).1.getD j 0) = 64 * j - 1 := by
      intro j hj1 hjlt
      by_cases hjold : j < lut.length
      · rw [w5 j hjold]
        exact hsamp j hj1 hjold
      · obtain ⟨hval, hd1, hd2⟩ := w6 j (by omega) hjlt
        rw [hval]
        have hpc : popcount64 w = countBits w 64 := rfl
        obtain ⟨htb, hcb⟩ := nthOneAux_spec 64 w (64 * j - U) hd1 (by
          rw [← hpc] at *
          omega)
        have hp64 : select64 w (64 * j - U) < 64 := by
          by_contra hc
          have : w.testBit (nthOneAux 64 w (64 * j - U)) = false :=
            testBit_ge_64 w _ hw_lt (by unfold select64 at hc; omega)
          rw [this] at htb
          exact Bool.false_ne_true htb
        have hpos : i * 64 + select64 w (64 * j - U) = 64 * i + select64 w (64 * j - U) := by
          ring
        constructor
        · rw [hpos, ← word_testBit_eq_readBit bits i _ hp64, ← hwgetD]
          exact htb
        · rw [hpos]
          have hsp : countUpto bits (64 * i + select64 w (64 * j - U)) =
              countUpto bits (64 * i) + countBits (bits.getD i 0) (select64 w (64 * j - U)) :=
            countUpto_word_split bits i _ (by omega)
          rw [hsp, ← hwgetD]
          unfold select64
          rw [hcb, ← hU]
          omega
    have heq : selInitGo (w :: ws2) i lut S U =
        selInitGo ws2 (i + 1) (selInitWordAux 65 w i lut S U).1
          (selInitWordAux 65 w i lut S U).2 (U + popcount64 w) := rfl
    rw [heq]
    obtain ⟨g1, g2, g3, g4⟩ := ih bits (i + 1) (selInitWordAux 65 w i lut S U).1
      (selInitWordAux 65 w i lut S U).2 (U + popcount64 w) hws2 hw hU1
      w2 (by omega) w1 hsamp'
    refine ⟨g1, g2, ?_, g4⟩
    intro j hj
    rw [g3 j (by omega)]
    exact w5 j hj

theorem selectInit_spec (bits : List Nat) (numBits : Nat) (hw : ∀ x ∈ bits, x < 2 ^ 64) :
    (selectInit bits numBits).numOnes = countUpto bits (64 * bits.length) ∧
    (selectInit bits numBits).selectLut.length = (selectInit bits numBits).numOnes / 64 + 1 ∧
    (selectInit bits numBits).selectLut.getD 0 0 = 0 ∧
    (∀ j, 1 ≤ j → j < (selectInit bits numBits).selectLut.length →
      readBit bits ((selectInit bits numBits).selectLut.getD j 0) = true ∧
      countUpto bits ((selectInit bits numBits).selectLut.getD j 0) = 64 * j - 1) := by
  have hU0 : (0 : Nat) = countUpto bits (64 * 0) := by
    unfold countUpto
    rfl
  obtain ⟨g1, g2, g3, g4⟩ := selInitGo_spec bits bits 0 [0] 64 0
    (List.drop_zero bits).symm hw hU0 (by omega) (by omega) (by simp)
    (by intro j hj1 hj2; simp at hj2; omega)
  have hOnes : (selectInit bits numBits).numOnes = (selInitGo bits 0 [0] 64 0).2 := rfl
  have hLut : (selectInit bits numBits).selectLut = (selInitGo bits 0 [0] 64 0).1 := rfl
  refine ⟨by rw [hOnes, g1], by rw [hOnes, hLut, g2, g1], ?_, ?_⟩
  · rw [hLut, g3 0 (by simp)]
    rfl
  · intro j hj1 hj2
    rw [hLut] at hj2 ⊢
    exact g4 j hj1 hj2

/-- The decremented remaining rank of `Select`: Go decrements the `uint32`
`rankLeft` when the sample index is 0, wrapping mod `2^32`. -/
def selRankLeft (rank : Nat) : Nat :=
  if rank / 64 = 0 then (rank % 64 + (2 ^ 32 - 1)) % 2 ^ 32 else rank % 64

/-- The word offset `Select` starts its scan at: one past the sample
position. -/
def selStartWordOff (pos : Nat) : Nat :=
  if pos % 64 = 63 then pos / 64 + 1 else pos / 64

/-- The bit offset within that word. -/
def selStartBitsOff (pos : Nat) : Nat :=
  if pos % 64 = 63 then 0 else pos % 64 + 1

/-- Shallow embedding of `selectVector.Select`: look up the sampled position
for `rank/64`, return it outright when no ones remain to count, otherwise
scan forward by words from one past the sample.  Out-of-range indexing (a Go
panic) is `none`. -/
def selSelect (v : SelVecM) (rank : Nat) : Option Nat :=
  if rank / 64 < v.selectLut.length then
    if selRankLeft rank = 0 then some (v.selectLut.getD (rank / 64) 0)
    else
      if selStartWordOff (v.selectLut.getD (rank / 64) 0) < v.bits.length then
        selLoop (v.bits.drop (selStartWordOff (v.selectLut.getD (rank / 64) 0) + 1))
          (selStartWordOff (v.selectLut.getD (rank / 64) 0))
          ((v.bits.getD (selStartWordOff (v.selectLut.getD (rank / 64) 0)) 0 >>>
              selStartBitsOff (v.selectLut.getD (rank / 64) 0)) <<<
            selStartBitsOff (v.selectLut.getD (rank / 64) 0))
          (selRankLeft rank)
      else none
  else none

theorem selStart_sum (pos : Nat) :
    64 * selStartWordOff pos + selStartBitsOff pos = pos + 1 := by
  unfold selStartWordOff selStartBitsOff
  by_cases h : pos % 64 = 63
  · rw [if_pos h, if_pos h]
    omega
  · rw [if_neg h, if_neg h]
    omega

theorem selStartBitsOff_le (pos : Nat) : selStartBitsOff pos ≤ 64 := by
  unfold selStartBitsOff
  by_cases h : pos % 64 = 63
  · rw [if_pos h]
    omega
  · rw [if_neg h]
    omega

/-- Counterexample to C5 as stated: the vector `0b10` (`numBits = 2`), built
by `Init`, has one set bit, at position 1; but `Select(1)` hits the
`rankLeft == 0` early return and yields `selectLut[0] = 0`, which is not the
position of the first set bit. -/
theorem select_correct_counterexample :
    (selectInit [2] 2).numOnes = 1 ∧
    selSelect (selectInit [2] 2) 1 = some 0 ∧
    readBit [2] 0 = false ∧ readBit [2] 1 = true := by
  refine ⟨?_, ?_, ?_, ?_⟩ <;> decide

/-- C5 (amended: additionally assuming bit 0 of the vector is set — when it
is clear, `Select(r)` with `r ≤ 63` returns positions one bit too early, as
the counterexample shows; in SuRF the vector is a LOUDS bitmap whose bit 0
is always set): for a `selectVector` built by `Init` over 64-bit words and
any rank `1 ≤ r ≤ numOnes < 2^32`, `Select(r)` returns the zero-based
position of the `r`-th set bit: a set position with exactly `r - 1` set bits
below it. -/
theorem select_correct (bits : List Nat) (numBits rank : Nat)
    (hw : ∀ x ∈ bits, x < 2 ^ 64)
    (h0 : readBit bits 0 = true)
    (hr1 : 1 ≤ rank)
    (hr2 : rank ≤ (selectInit bits numBits).numOnes)
    (hbound : (selectInit bits numBits).numOnes < 2 ^ 32) :
    ∃ p, selSelect (selectInit bits numBits) rank = some p ∧
      readBit bits p = true ∧ countUpto bits p = rank - 1 := by
  obtain ⟨hT, hL, h00, hsamp⟩ := selectInit_spec bits numBits hw
  rw [hT] at hr2 hbound
  have hlutlt : rank / 64 < (selectInit bits numBits).selectLut.length := by
    rw [hL, hT]
    have := @Nat.div_le_div_right _ _ 64 hr2
    omega
  have hBits : (selectInit bits numBits).bits = bits := rfl
  unfold selSelect
  rw [if_pos hlutlt, hBits]
  by_cases hRL : selRankLeft rank = 0
  · rw [if_pos hRL]
    by_cases hIdx : rank / 64 = 0
    · have hRLval : selRankLeft rank = rank - 1 := by
        unfold selRankLeft
        rw [if_pos hIdx]
        omega
      have hrank1 : rank = 1 := by omega
      refine ⟨(selectInit bits numBits).selectLut.getD (rank / 64) 0, rfl, ?_, ?_⟩
      · rw [hIdx, h00]
        exact h0
      · rw [hIdx, h00, hrank1]
        unfold countUpto
        rfl
    · have hmod : rank % 64 = 0 := by
        unfold selRankLeft at hRL
        rw [if_neg hIdx] at hRL
        exact hRL
      obtain ⟨hrb, hcu⟩ := hsamp (rank / 64) (by omega) hlutlt
      refine ⟨(selectInit bits numBits).selectLut.getD (rank / 64) 0, rfl, hrb, ?_⟩
      rw [hcu]
      omega
  · rw [if_neg hRL]
    have hRLge : 1 ≤ selRankLeft rank := by omega
    have hposCount : countUpto bits
        ((selectInit bits numBits).selectLut.getD (rank / 64) 0 + 1) +
        selRankLeft rank = rank := by
      by_cases hIdx : rank / 64 = 0
      · have hRLval : selRankLeft rank = rank - 1 := by
          unfold selRankLeft
          rw [if_pos hIdx]
          omega
        rw [hIdx, h00, hRLval]
        rw [countUpto_succ_true bits 0 h0]
        have hz : countUpto bits 0 = 0 := by
          unfold countUpto
          rfl
        rw [hz]
        omega
      · have hRLval : selRankLeft rank = rank % 64 := by
          unfold selRankLeft
          rw [if_neg hIdx]
        obtain ⟨hrb, hcu⟩ := hsamp (rank / 64) (by omega) hlutlt
        rw [countUpto_succ_true bits _ hrb, hcu, hRLval]
        omega
    set pos := (selectInit bits numBits).selectLut.getD (rank / 64) 0 with hposdef
    have hsum := selStart_sum pos
    have hwo_lt : selStartWordOff pos < bits.length := by
      have hlt : countUpto bits (64 * selStartWordOff pos + selStartBitsOff pos) <
          countUpto bits (64 * bits.length) := by
        rw [hsum]
        omega
      obtain ⟨q, hq1, hq2, hq3⟩ := exists_readBit_of_countUpto_lt bits _ _ hlt
      have hqw := word_lt_of_readBit bits q hq3
      have : selStartWordOff pos ≤ q / 64 := by
        have h1 : 64 * selStartWordOff pos ≤ q := by omega
        omega
      omega
    rw [if_pos hwo_lt]
    have hEnough : countUpto bits (64 * selStartWordOff pos + selStartBitsOff pos) +
        selRankLeft rank ≤ countUpto bits (64 * bits.length) := by
      rw [hsum]
      omega
    obtain ⟨p, hsel, hrb, hcu⟩ := selLoop_spec (bits.drop (selStartWordOff pos + 1)) bits
      (selStartWordOff pos) (selStartBitsOff pos) (selRankLeft rank) rfl hw
      (selStartBitsOff_le pos) hRLge hEnough hwo_lt
    refine ⟨p, hsel, hrb, ?_⟩
    rw [hcu, hsum]
    omega

/-- Witness for the amended C5: the word `0b100101` (bits 0, 2, 5 set — the
spec's own example `100101000`): `Select(3)` returns bit position 5. -/
theorem select_correct_witness :
    ∃ p, selSelect (selectInit [37] 9) 3 = some p ∧
      readBit [37] p = true ∧ countUpto [37] p = 3 - 1 :=
  select_correct [37] 9 3 (by decide) (by decide) (by decide) (by decide) (by decide)

/-! ## C1 / C2 / C3: the snapshot `Iterator` (`parseItem`, `Next`)

The merged source stream `it.iitr` is modelled as a `List Entry` of
internal-key / value pairs, already merged and sorted in iteration order.
`Iterator.parseItem` consumes the head entry, advances the stream
(the Go code's `mi.Next()` calls), possibly produces one `Item`
(`setItem`), and in the forward direction updates `it.lastKey`
(modelled as `Option IKey`: the Go zero value `nil` is `none`; `y.SameKey`
compares the user-key parts).  The full emitted stream of the iterator —
the items produced by `Next`/`prefetch` repeatedly calling `parseItem`
until the source is exhausted — is `emitted`. -/

/-- The iterator options that drive `parseItem` (`IteratorOptions.Reverse`,
`.AllVersions`, `.internalAccess`). -/
structure IterOpts where
  reverse : Bool
  allVersions : Bool
  internalAccess : Bool
deriving DecidableEq

/-- One merged-stream entry: internal key and value struct. -/
structure Entry where
  key : IKey
  value : VStruct
deriving DecidableEq

/-- The fields of `Item` that `Iterator.fill` sets from the cursor:
`item.key = ParseKey(key)`, `item.version = ParseTs(key)`, `item.meta`,
`item.userMeta` and `item.vptr` from the merged value struct. -/
structure ItItem where
  key : List Nat
  version : Nat
  meta : Nat
  userMeta : List Nat
  vptr : List Nat
deriving DecidableEq

/-- Modelled from the spec: the `meta` bit flagging a deletion tombstone
(`bitDelete`); its concrete position is irrelevant to the claims. -/
def bitDelete : Nat := 1

/-- Embedding of `isDeleted`: `meta&bitDelete > 0`. -/
def isDeleted (meta : Nat) : Bool := decide (0 < meta &&& bitDelete)

/-- Modelled from the spec: the reserved internal-key marker `badgerPrefix`
(`!badger!` as bytes); only its role as a distinguished marker matters. -/
def badgerPfx : List Nat := [33, 98, 97, 100, 103, 101, 114, 33]

/-- Embedding of `bytes.HasPrefix p` as a scan. -/
def listHasPfx : List Nat → List Nat → Bool
  | [], _ => true
  | _ :: _, [] => false
  | p :: ps, x :: xs => p == x && listHasPfx ps xs

/-- `bytes.HasPrefix(key, badgerPrefix)` on the user-key part. -/
def hasBadgerPfx (k : IKey) : Bool := listHasPfx badgerPfx k.userKey

/-- `y.SameKey(it.lastKey, key)` with `lastKey` as an `Option`:
the initial `nil` `lastKey` matches nothing, otherwise the user keys
are compared. -/
def sameKeyOpt : Option IKey → IKey → Bool
  | none, _ => false
  | some k0, k => k0.userKey == k.userKey

/-- `Iterator.fill`: the item built from the cursor entry. -/
def mkItem (e : Entry) : ItItem :=
  ⟨e.key.userKey, e.key.version, e.value.Meta, e.value.UserMeta, e.value.Value⟩

/-- The `FILL:` block of `parseItem`, with the `goto FILL` loop made a
recursion on the remaining stream: if the cursor value is deleted, advance
and produce nothing; otherwise build the item and advance; emit it unless
iterating in reverse with a valid next entry that is a candidate
(`nextTs <= readTs && bytes.Equal(mik, item.key)`), in which case the walk
continues at the next entry.  Returns the produced item (if any) and the
stream as left by the `mi.Next()` calls. -/
def fillLoop (reverse : Bool) (readTs : Nat) : Entry → List Entry → Option ItItem × List Entry
  | cur, [] => if isDeleted cur.value.Meta then (none, []) else (some (mkItem cur), [])
  | cur, next :: rest2 =>
    if isDeleted cur.value.Meta then (none, next :: rest2)
    else if reverse && (decide (next.key.version ≤ readTs) && (next.key.userKey == cur.key.userKey)) then
      fillLoop reverse readTs next rest2
    else (some (mkItem cur), next :: rest2)

/-- Embedding of `Iterator.parseItem` acting on the head of the merged
stream: skip badger-internal keys (unless `internalAccess`), skip versions
beyond `readTs`, emit everything under `AllVersions`; otherwise in the
forward direction skip a repeated user key (`y.SameKey(it.lastKey, key)`),
record the new `lastKey` and run the `FILL:` block; in reverse run the
`FILL:` block with its one-ahead candidate walk.  Returns the produced
item (if any), the advanced stream, and the updated `lastKey`. -/
def parseItem (cfg : IterOpts) (readTs : Nat) (cur : Entry) (rest : List Entry)
    (lk : Option IKey) : Option ItItem × List Entry × Option IKey :=
  if !cfg.internalAccess && hasBadgerPfx cur.key then (none, rest, lk)
  else if readTs < cur.key.version then (none, rest, lk)
  else if cfg.allVersions then (some (mkItem cur), rest, lk)
  else if !cfg.reverse then
    if sameKeyOpt lk cur.key then (none, rest, lk)
    else ((fillLoop cfg.reverse readTs cur rest).1,
          (fillLoop cfg.reverse readTs cur rest).2, some cur.key)
  else ((fillLoop cfg.reverse readTs cur rest).1,
        (fillLoop cfg.reverse readTs cur rest).2, lk)

/-- The items produced by repeatedly calling `parseItem` (as
`Iterator.Next`/`prefetch` do) until the merged stream is exhausted;
`fuel` bounds the number of calls (each call consumes at least the head
entry, so `s.length` suffices). -/
def emittedGo (cfg : IterOpts) (readTs : Nat) : Nat → List Entry → Option IKey → List ItItem
  | _, [], _ => []
  | 0, _ :: _, _ => []
  | fuel + 1, cur :: rest, lk =>
    (parseItem cfg readTs cur rest lk).1.toList ++
      emittedGo cfg readTs fuel (parseItem cfg readTs cur rest lk).2.1
        (parseItem cfg readTs cur rest lk).2.2

/-- The full emitted item stream of the snapshot iterator over source `s`
starting with `lastKey = lk`. -/
def emitted (cfg : IterOpts) (readTs : Nat) (s : List Entry) (lk : Option IKey) : List ItItem :=
  emittedGo cfg readTs s.length s lk

/-- The merge order of keys in the forward direction: user keys ascending,
versions descending within a user key. -/
def entLT (e1 e2 : Entry) : Prop :=
  List.Lex (· < ·) e1.key.userKey e2.key.userKey ∨
    (e1.key.userKey = e2.key.userKey ∧ e2.key.version < e1.key.version)

/-- The merge order of keys in the reverse direction: user keys descending,
versions ascending within a user key. -/
def entGT (e1 e2 : Entry) : Prop :=
  List.Lex (· < ·) e2.key.userKey e1.key.userKey ∨
    (e1.key.userKey = e2.key.userKey ∧ e1.key.version < e2.key.version)

instance decEntLT : DecidableRel entLT := fun e1 e2 => by
  unfold entLT
  exact inferInstance

instance decEntGT : DecidableRel entGT := fun e1 e2 => by
  unfold entGT
  exact inferInstance

/-- The largest element of a list of naturals, if any. -/
def listMax : List Nat → Option Nat
  | [] => none
  | x :: xs =>
    match listMax xs with
    | none => some x
    | some m => some (max x m)

/-- The versions `≤ ts` that the source stream `s` holds for user key `u`. -/
def versionsLE (s : List Entry) (u : List Nat) (ts : Nat) : List Nat :=
  (s.filter (fun e => e.key.userKey == u && decide (e.key.version ≤ ts))).map
    (fun e => e.key.version)

/-- The newest version `≤ ts` of user key `u` in source stream `s`. -/
def newestLE (s : List Entry) (u : List Nat) (ts : Nat) : Option Nat :=
  listMax (versionsLE s u ts)

theorem listMax_ne_none (x : Nat) (xs : List Nat) : listMax (x :: xs) ≠ none := by
  simp only [listMax]
  cases listMax xs <;> simp

theorem listMax_le : ∀ (l : List Nat) (m : Nat), listMax l = some m → ∀ b ∈ l, b ≤ m := by
  intro l
  induction l with
  | nil => intro m h b hb; cases hb
  | cons x xs ih =>
    intro m h b hb
    simp only [listMax] at h
    cases hm : listMax xs with
    | none =>
      rw [hm] at h
      injection h with h2
      cases hb with
      | head => omega
      | tail _ hb' =>
        cases xs with
        | nil => cases hb'
        | cons y ys => exact absurd hm (listMax_ne_none y ys)
    | some m0 =>
      rw [hm] at h
      injection h with h2
      have hx : x ≤ m := h2 ▸ Nat.le_max_left x m0
      have hm0 : m0 ≤ m := h2 ▸ Nat.le_max_right x m0
      cases hb with
      | head => exact hx
      | tail _ hb' => exact Nat.le_trans (ih m0 hm b hb') hm0

theorem listMax_mem : ∀ (l : List Nat) (m : Nat), listMax l = some m → m ∈ l := by
  intro l
  induction l with
  | nil => intro m h; cases h
  | cons x xs ih =>
    intro m h
    simp only [listMax] at h
    cases hm : listMax xs with
    | none =>
      rw [hm] at h
      injection h with h2
      exact h2 ▸ List.mem_cons_self x xs
    | some m0 =>
      rw [hm] at h
      injection h with h2
      rcases Nat.le_total x m0 with hc | hc
      · have hm' : m = m0 := by rw [← h2, Nat.max_eq_right hc]
        exact hm' ▸ List.mem_cons_of_mem x (ih m0 hm)
      · have hm' : m = x := by rw [← h2, Nat.max_eq_left hc]
        exact hm' ▸ List.mem_cons_self x xs

theorem listMax_eq_some : ∀ (l : List Nat) (a : Nat), a ∈ l → (∀ b ∈ l, b ≤ a) →
    listMax l = some a := by
  intro l
  induction l with
  | nil => intro a ha; cases ha
  | cons x xs ih =>
    intro a ha hb
    simp only [listMax]
    cases hm : listMax xs with
    | none =>
      have hxs : xs = [] := by
        cases xs with
        | nil => rfl
        | cons y ys => exact absurd hm (listMax_ne_none y ys)
      subst hxs
      rcases List.mem_singleton.mp ha with rfl
      rfl
    | some m0 =>
      have hm0a : m0 ≤ a := hb m0 (List.mem_cons_of_mem x (listMax_mem xs m0 hm))
      have hxa : x ≤ a := hb x (List.mem_cons_self x xs)
      have hmax : max x m0 = a := by
        rcases List.mem_cons.mp ha with h1 | h1
        · rw [h1] at hm0a ⊢
          exact Nat.max_eq_left hm0a
        · have ham0 : a ≤ m0 := listMax_le xs m0 hm a h1
          have ha' : a = m0 := Nat.le_antisymm ham0 hm0a
          rw [ha'] at hxa ⊢
          exact Nat.max_eq_right hxa
      exact congrArg some hmax

theorem listMax_append_right (l1 l2 : List Nat) (m : Nat) (h : listMax l2 = some m)
    (hb : ∀ x ∈ l1, x ≤ m) : listMax (l1 ++ l2) = some m := by
  apply listMax_eq_some
  · exact List.mem_append_right l1 (listMax_mem l2 m h)
  · intro b hbm
    rcases List.mem_append.mp hbm with h1 | h2
    · exact hb b h1
    · exact listMax_le l2 m h b h2

theorem versionsLE_append (s1 s2 : List Entry) (u : List Nat) (ts : Nat) :
    versionsLE (s1 ++ s2) u ts = versionsLE s1 u ts ++ versionsLE s2 u ts := by
  unfold versionsLE
  rw [List.filter_append, List.map_append]

theorem versionsLE_cons_skip (e : Entry) (s : List Entry) (u : List Nat) (ts : Nat)
    (h : ¬ (e.key.userKey = u ∧ e.key.version ≤ ts)) :
    versionsLE (e :: s) u ts = versionsLE s u ts := by
  have hc' : ¬ ((e.key.userKey == u && decide (e.key.version ≤ ts)) = true) := by
    simp only [Bool.and_eq_true, beq_iff_eq, decide_eq_true_eq]
    exact h
  unfold versionsLE
  rw [List.filter_cons, if_neg hc']

theorem versionsLE_cons_mem (e : Entry) (s : List Entry) (u : List Nat) (ts : Nat)
    (h1 : e.key.userKey = u) (h2 : e.key.version ≤ ts) :
    versionsLE (e :: s) u ts = e.key.version :: versionsLE s u ts := by
  have hc' : (e.key.userKey == u && decide (e.key.version ≤ ts)) = true := by
    simp only [Bool.and_eq_true, beq_iff_eq, decide_eq_true_eq]
    exact ⟨h1, h2⟩
  unfold versionsLE
  rw [List.filter_cons, if_pos hc', List.map_cons]

theorem versionsLE_mem (s : List Entry) (u : List Nat) (ts b : Nat)
    (h : b ∈ versionsLE s u ts) :
    ∃ e, e ∈ s ∧ e.key.userKey = u ∧ e.key.version = b ∧ b ≤ ts := by
  unfold versionsLE at h
  rcases List.mem_map.mp h with ⟨e, he, hv⟩
  rcases List.mem_filter.mp he with ⟨hmem, hp⟩
  simp only [Bool.and_eq_true, beq_iff_eq, decide_eq_true_eq] at hp
  exact ⟨e, hmem, hp.1, hv, hv ▸ hp.2⟩

theorem versionsLE_mem_intro (s : List Entry) (u : List Nat) (ts : Nat) (e : Entry)
    (hmem : e ∈ s) (hk : e.key.userKey = u) (hts : e.key.version ≤ ts) :
    e.key.version ∈ versionsLE s u ts := by
  unfold versionsLE
  apply List.mem_map.mpr
  refine ⟨e, List.mem_filter.mpr ⟨hmem, ?_⟩, rfl⟩
  simp only [Bool.and_eq_true, beq_iff_eq, decide_eq_true_eq]
  exact ⟨hk, hts⟩

theorem versionsLE_nil_of (s : List Entry) (u : List Nat) (ts : Nat)
    (h : ∀ e ∈ s, e.key.userKey ≠ u) : versionsLE s u ts = [] := by
  unfold versionsLE
  have hf : s.filter (fun e => e.key.userKey == u && decide (e.key.version ≤ ts)) = [] := by
    apply List.filter_eq_nil_iff.mpr
    intro e he hc
    simp only [Bool.and_eq_true, beq_iff_eq, decide_eq_true_eq] at hc
    exact h e he hc.1
  rw [hf, List.map_nil]

theorem parseItem_skip_badger (cfg : IterOpts) (ts : Nat) (cur : Entry) (rest : List Entry)
    (lk : Option IKey) (h : (!cfg.internalAccess && hasBadgerPfx cur.key) = true) :
    parseItem cfg ts cur rest lk = (none, rest, lk) := by
  unfold parseItem
  rw [if_pos h]

theorem parseItem_skip_version (cfg : IterOpts) (ts : Nat) (cur : Entry) (rest : List Entry)
    (lk : Option IKey) (h1 : (!cfg.internalAccess && hasBadgerPfx cur.key) = false)
    (h2 : ts < cur.key.version) :
    parseItem cfg ts cur rest lk = (none, rest, lk) := by
  unfold parseItem
  rw [h1, if_neg (by simp), if_pos h2]

theorem parseItem_av (cfg : IterOpts) (ts : Nat) (cur : Entry) (rest : List Entry)
    (lk : Option IKey) (h1 : (!cfg.internalAccess && hasBadgerPfx cur.key) = false)
    (h2 : ¬ ts < cur.key.version) (h3 : cfg.allVersions = true) :
    parseItem cfg ts cur rest lk = (some (mkItem cur), rest, lk) := by
  unfold parseItem
  rw [h1, if_neg (by simp), if_neg h2, h3, if_pos rfl]

theorem parseItem_fwd_same (cfg : IterOpts) (ts : Nat) (cur : Entry) (rest : List Entry)
    (lk : Option IKey) (h1 : (!cfg.internalAccess && hasBadgerPfx cur.key) = false)
    (h2 : ¬ ts < cur.key.version) (h3 : cfg.allVersions = false)
    (h4 : cfg.reverse = false) (h5 : sameKeyOpt lk cur.key = true) :
    parseItem cfg ts cur rest lk = (none, rest, lk) := by
  unfold parseItem
  rw [h1, if_neg (by simp), if_neg h2, h3, if_neg (by simp), h4, Bool.not_false, if_pos rfl,
    h5, if_pos rfl]

theorem parseItem_fwd_fill (cfg : IterOpts) (ts : Nat) (cur : Entry) (rest : List Entry)
    (lk : Option IKey) (h1 : (!cfg.internalAccess && hasBadgerPfx cur.key) = false)
    (h2 : ¬ ts < cur.key.version) (h3 : cfg.allVersions = false)
    (h4 : cfg.reverse = false) (h5 : sameKeyOpt lk cur.key = false) :
    parseItem cfg ts cur rest lk =
      ((fillLoop false ts cur rest).1, (fillLoop false ts cur rest).2, some cur.key) := by
  unfold parseItem
  rw [h1, if_neg (by simp), if_neg h2, h3, if_neg (by simp), h4, Bool.not_false, if_pos rfl,
    h5, if_neg (by simp)]

theorem parseItem_rev_fill (cfg : IterOpts) (ts : Nat) (cur : Entry) (rest : List Entry)
    (lk : Option IKey) (h1 : (!cfg.internalAccess && hasBadgerPfx cur.key) = false)
    (h2 : ¬ ts < cur.key.version) (h3 : cfg.allVersions = false)
    (h4 : cfg.reverse = true) :
    parseItem cfg ts cur rest lk =
      ((fillLoop true ts cur rest).1, (fillLoop true ts cur rest).2, lk) := by
  unfold parseItem
  rw [h1, if_neg (by simp), if_neg h2, h3, if_neg (by simp), h4, Bool.not_true,
    if_neg (by simp)]

theorem emittedGo_nil (cfg : IterOpts) (ts : Nat) (fuel : Nat) (lk : Option IKey) :
    emittedGo cfg ts fuel [] lk = [] := by
  cases fuel <;> rfl

theorem emittedGo_cons (cfg : IterOpts) (ts fuel : Nat) (cur : Entry) (rest : List Entry)
    (lk : Option IKey) :
    emittedGo cfg ts (fuel + 1) (cur :: rest) lk =
      (parseItem cfg ts cur rest lk).1.toList ++
        emittedGo cfg ts fuel (parseItem cfg ts cur rest lk).2.1
          (parseItem cfg ts cur rest lk).2.2 := rfl

/-- The forward `FILL:` block never walks: it produces the current item
unless deleted, leaving the stream at the already-advanced position. -/
theorem fillLoop_fwd (ts : Nat) (cur : Entry) (rest : List Entry) :
    fillLoop false ts cur rest =
      ((if isDeleted cur.value.Meta then none else some (mkItem cur)), rest) := by
  cases rest with
  | nil =>
    simp only [fillLoop]
    by_cases hdel : isDeleted cur.value.Meta = true
    · rw [if_pos hdel, if_pos hdel]
    · rw [if_neg hdel, if_neg hdel]
  | cons next rest2 =>
    simp only [fillLoop, Bool.false_and, Bool.false_eq_true, if_false]
    by_cases hdel : isDeleted cur.value.Meta = true
    · rw [if_pos hdel, if_pos hdel]
    · rw [if_neg hdel, if_neg hdel]

theorem fillLoop_sub (rev : Bool) (ts : Nat) :
    ∀ (rest : List Entry) (cur : Entry), (fillLoop rev ts cur rest).2 <:+ rest := by
  intro rest
  induction rest with
  | nil =>
    intro cur
    simp only [fillLoop]
    by_cases hdel : isDeleted cur.value.Meta = true
    · rw [if_pos hdel]
    · rw [if_neg hdel]
  | cons next rest2 ih =>
    intro cur
    simp only [fillLoop]
    by_cases hdel : isDeleted cur.value.Meta = true
    · rw [if_pos hdel]
    · rw [if_neg hdel]
      by_cases hc : (rev && (decide (next.key.version ≤ ts) && (next.key.userKey == cur.key.userKey))) = true
      · rw [if_pos hc]
        exact (ih next).trans (List.suffix_cons next rest2)
      · rw [if_neg hc]

/-- Provenance of the item produced by the `FILL:` block: it is built from
some not-deleted entry of the consumed stream whose version is within
`readTs` (given that the entry point is). -/
theorem fillLoop_some (rev : Bool) (ts : Nat) :
    ∀ (rest : List Entry) (cur : Entry), cur.key.version ≤ ts →
      ∀ i, (fillLoop rev ts cur rest).1 = some i →
        ∃ e, e ∈ cur :: rest ∧ i = mkItem e ∧ isDeleted e.value.Meta = false ∧
          e.key.version ≤ ts := by
  intro rest
  induction rest with
  | nil =>
    intro cur hver i h
    simp only [fillLoop] at h
    by_cases hdel : isDeleted cur.value.Meta = true
    · rw [if_pos hdel] at h
      cases h
    · rw [if_neg hdel] at h
      injection h with h2
      exact ⟨cur, List.mem_cons_self cur [], h2.symm, Bool.eq_false_iff.mpr hdel, hver⟩
  | cons next rest2 ih =>
    intro cur hver i h
    simp only [fillLoop] at h
    by_cases hdel : isDeleted cur.value.Meta = true
    · rw [if_pos hdel] at h
      cases h
    · rw [if_neg hdel] at h
      by_cases hc : (rev && (decide (next.key.version ≤ ts) && (next.key.userKey == cur.key.userKey))) = true
      · rw [if_pos hc] at h
        have hnver : next.key.version ≤ ts := by
          rcases Bool.and_eq_true_iff.mp hc with ⟨_, hc2⟩
          rcases Bool.and_eq_true_iff.mp hc2 with ⟨hc3, _⟩
          exact of_decide_eq_true hc3
        rcases ih next hnver i h with ⟨e, hmem, hrest⟩
        exact ⟨e, List.mem_cons_of_mem cur hmem, hrest⟩
      · rw [if_neg hc] at h
        injection h with h2
        exact ⟨cur, List.mem_cons_self cur (next :: rest2), h2.symm,
          Bool.eq_false_iff.mpr hdel, hver⟩

/-- Provenance of an item produced by one `parseItem` call. -/
theorem parseItem_some (cfg : IterOpts) (ts : Nat) (cur : Entry) (rest : List Entry)
    (lk : Option IKey) (i : ItItem) (h : (parseItem cfg ts cur rest lk).1 = some i) :
    ∃ e, e ∈ cur :: rest ∧ i = mkItem e ∧ e.key.version ≤ ts ∧
      (isDeleted e.value.Meta = false ∨ cfg.allVersions = true) := by
  by_cases h1 : (!cfg.internalAccess && hasBadgerPfx cur.key) = true
  · rw [parseItem_skip_badger cfg ts cur rest lk h1] at h
    cases h
  · have h1' := Bool.eq_false_iff.mpr h1
    by_cases h2 : ts < cur.key.version
    · rw [parseItem_skip_version cfg ts cur rest lk h1' h2] at h
      cases h
    · have hver : cur.key.version ≤ ts := Nat.le_of_not_lt h2
      by_cases h3 : cfg.allVersions = true
      · rw [parseItem_av cfg ts cur rest lk h1' h2 h3] at h
        injection h with h4
        exact ⟨cur, List.mem_cons_self cur rest, h4.symm, hver, Or.inr h3⟩
      · have h3' := Bool.eq_false_iff.mpr h3
        by_cases h4 : cfg.reverse = true
        · rw [parseItem_rev_fill cfg ts cur rest lk h1' h2 h3' h4] at h
          rcases fillLoop_some true ts rest cur hver i h with ⟨e, hmem, hi, hdel, hev⟩
          exact ⟨e, hmem, hi, hev, Or.inl hdel⟩
        · have h4' := Bool.eq_false_iff.mpr h4
          by_cases h5 : sameKeyOpt lk cur.key = true
          · rw [parseItem_fwd_same cfg ts cur rest lk h1' h2 h3' h4' h5] at h
            cases h
          · have h5' := Bool.eq_false_iff.mpr h5
            rw [parseItem_fwd_fill cfg ts cur rest lk h1' h2 h3' h4' h5'] at h
            rcases fillLoop_some false ts rest cur hver i h with ⟨e, hmem, hi, hdel, hev⟩
            exact ⟨e, hmem, hi, hev, Or.inl hdel⟩

/-- `parseItem` leaves a suffix of the incoming stream (it only advances). -/
theorem parseItem_sub (cfg : IterOpts) (ts : Nat) (cur : Entry) (rest : List Entry)
    (lk : Option IKey) : (parseItem cfg ts cur rest lk).2.1 <:+ cur :: rest := by
  by_cases h1 : (!cfg.internalAccess && hasBadgerPfx cur.key) = true
  · rw [parseItem_skip_badger cfg ts cur rest lk h1]
    exact List.suffix_cons cur rest
  · have h1' := Bool.eq_false_iff.mpr h1
    by_cases h2 : ts < cur.key.version
    · rw [parseItem_skip_version cfg ts cur rest lk h1' h2]
      exact List.suffix_cons cur rest
    · by_cases h3 : cfg.allVersions = true
      · rw [parseItem_av cfg ts cur rest lk h1' h2 h3]
        exact List.suffix_cons cur rest
      · have h3' := Bool.eq_false_iff.mpr h3
        by_cases h4 : cfg.reverse = true
        · rw [parseItem_rev_fill cfg ts cur rest lk h1' h2 h3' h4]
          exact (fillLoop_sub true ts rest cur).trans (List.suffix_cons cur rest)
        · have h4' := Bool.eq_false_iff.mpr h4
          by_cases h5 : sameKeyOpt lk cur.key = true
          · rw [parseItem_fwd_same cfg ts cur rest lk h1' h2 h3' h4' h5]
            exact List.suffix_cons cur rest
          · have h5' := Bool.eq_false_iff.mpr h5
            rw [parseItem_fwd_fill cfg ts cur rest lk h1' h2 h3' h4' h5']
            exact (fillLoop_sub false ts rest cur).trans (List.suffix_cons cur rest)

theorem parseItem_len (cfg : IterOpts) (ts : Nat) (cur : Entry) (rest : List Entry)
    (lk : Option IKey) : (parseItem cfg ts cur rest lk).2.1.length ≤ rest.length := by
  by_cases h1 : (!cfg.internalAccess && hasBadgerPfx cur.key) = true
  · rw [parseItem_skip_badger cfg ts cur rest lk h1]
  · have h1' := Bool.eq_false_iff.mpr h1
    by_cases h2 : ts < cur.key.version
    · rw [parseItem_skip_version cfg ts cur rest lk h1' h2]
    · by_cases h3 : cfg.allVersions = true
      · rw [parseItem_av cfg ts cur rest lk h1' h2 h3]
      · have h3' := Bool.eq_false_iff.mpr h3
        by_cases h4 : cfg.reverse = true
        · rw [parseItem_rev_fill cfg ts cur rest lk h1' h2 h3' h4]
          exact (fillLoop_sub true ts rest cur).length_le
        · have h4' := Bool.eq_false_iff.mpr h4
          by_cases h5 : sameKeyOpt lk cur.key = true
          · rw [parseItem_fwd_same cfg ts cur rest lk h1' h2 h3' h4' h5]
          · have h5' := Bool.eq_false_iff.mpr h5
            rw [parseItem_fwd_fill cfg ts cur rest lk h1' h2 h3' h4' h5']
            exact (fillLoop_sub false ts rest cur).length_le

/-- Provenance of every emitted item: it is built by `Iterator.fill` from
some source entry whose version is within `readTs`, and is not a tombstone
unless `AllVersions` is set. -/
theorem emitted_source (cfg : IterOpts) (ts : Nat) :
    ∀ (fuel : Nat) (s : List Entry) (lk : Option IKey), s.length ≤ fuel →
      ∀ i ∈ emittedGo cfg ts fuel s lk,
        ∃ e, e ∈ s ∧ i = mkItem e ∧ e.key.version ≤ ts ∧
          (isDeleted e.value.Meta = false ∨ cfg.allVersions = true) := by
  intro fuel
  induction fuel with
  | zero =>
    intro s lk hlen i hi
    cases s with
    | nil => rw [emittedGo_nil] at hi; cases hi
    | cons cur rest => simp at hlen
  | succ fuel ih =>
    intro s lk hlen i hi
    cases s with
    | nil => rw [emittedGo_nil] at hi; cases hi
    | cons cur rest =>
      rw [emittedGo_cons] at hi
      rcases List.mem_append.mp hi with hh | ht
      · have hsome : (parseItem cfg ts cur rest lk).1 = some i := by
          cases hp : (parseItem cfg ts cur rest lk).1 with
          | none => rw [hp] at hh; cases hh
          | some j =>
            rw [hp] at hh
            rcases List.mem_singleton.mp hh with rfl
            rfl
        exact parseItem_some cfg ts cur rest lk i hsome
      · have hlen' : (parseItem cfg ts cur rest lk).2.1.length ≤ fuel := by
          have := parseItem_len cfg ts cur rest lk
          simp only [List.length_cons] at hlen
          omega
        rcases ih (parseItem cfg ts cur rest lk).2.1 (parseItem cfg ts cur rest lk).2.2
          hlen' i ht with ⟨e, hmem, he⟩
        exact ⟨e, (parseItem_sub cfg ts cur rest lk).subset hmem, he⟩

/-- Under `AllVersions`, every in-snapshot entry with a non-internal key is
emitted (tombstones included). -/
theorem emitted_av (cfg : IterOpts) (ts : Nat) (hAV : cfg.allVersions = true) :
    ∀ (fuel : Nat) (s : List Entry) (lk : Option IKey), s.length ≤ fuel →
      ∀ e ∈ s, e.key.version ≤ ts → hasBadgerPfx e.key = false →
        mkItem e ∈ emittedGo cfg ts fuel s lk := by
  intro fuel
  induction fuel with
  | zero =>
    intro s lk hlen e he _ _
    cases s with
    | nil => cases he
    | cons cur rest => simp at hlen
  | succ fuel ih =>
    intro s lk hlen e he hver hbp
    cases s with
    | nil => cases he
    | cons cur rest =>
      rw [emittedGo_cons]
      simp only [List.length_cons] at hlen
      rcases List.mem_cons.mp he with rfl | he'
      · have h1' : (!cfg.internalAccess && hasBadgerPfx e.key) = false := by
          rw [hbp, Bool.and_false]
        have h2 : ¬ ts < e.key.version := Nat.not_lt.mpr hver
        rw [parseItem_av cfg ts e rest lk h1' h2 hAV]
        exact List.mem_append_left _ (List.mem_singleton.mpr rfl)
      · by_cases h1 : (!cfg.internalAccess && hasBadgerPfx cur.key) = true
        · rw [parseItem_skip_badger cfg ts cur rest lk h1]
          exact List.mem_append_right _ (ih rest lk (by omega) e he' hver hbp)
        · have h1' := Bool.eq_false_iff.mpr h1
          by_cases h2 : ts < cur.key.version
          · rw [parseItem_skip_version cfg ts cur rest lk h1' h2]
            exact List.mem_append_right _ (ih rest lk (by omega) e he' hver hbp)
          · rw [parseItem_av cfg ts cur rest lk h1' h2 hAV]
            exact List.mem_append_right _ (ih rest lk (by omega) e he' hver hbp)

theorem lexLt_trans : ∀ {a b c : List Nat},
    List.Lex (· < ·) a b → List.Lex (· < ·) b c → List.Lex (· < ·) a c := by
  intro a b c hab
  induction hab generalizing c with
  | nil =>
    intro hbc
    cases c with
    | nil => cases hbc
    | cons z m => exact List.Lex.nil
  | cons h ihh =>
    intro hbc
    cases hbc with
    | cons h2 => exact List.Lex.cons (ihh h2)
    | rel h2 => exact List.Lex.rel h2
  | rel h =>
    intro hbc
    cases hbc with
    | cons => exact List.Lex.rel h
    | rel h2 => exact List.Lex.rel (Nat.lt_trans h h2)

/-- Forward-direction invariant of the emission loop: starting from
`lastKey = lk` on a stream sorted by (user key asc, version desc) with no
internal keys, (a) no item is emitted for the `lastKey` user key, (b) at
most one item is emitted per user key, and (c) every emitted item carries
the newest version `≤ readTs` its user key has in the stream. -/
theorem fwdMain (cfg : IterOpts) (ts : Nat) (hrev : cfg.reverse = false)
    (hAV : cfg.allVersions = false) :
    ∀ (fuel : Nat) (s : List Entry) (lk : Option IKey), s.length ≤ fuel →
      s.Pairwise entLT →
      (∀ e ∈ s, hasBadgerPfx e.key = false) →
      (∀ k0, lk = some k0 → ∀ e ∈ s, k0.userKey = e.key.userKey ∨
        List.Lex (· < ·) k0.userKey e.key.userKey) →
      (∀ k0, lk = some k0 → ∀ i ∈ emittedGo cfg ts fuel s lk, i.key ≠ k0.userKey) ∧
      (∀ u, ((emittedGo cfg ts fuel s lk).filter (fun i => i.key == u)).length ≤ 1) ∧
      (∀ i ∈ emittedGo cfg ts fuel s lk, newestLE s i.key ts = some i.version) := by
  intro fuel
  induction fuel with
  | zero =>
    intro s lk hlen hp hB hlk
    cases s with
    | nil =>
      rw [emittedGo_nil]
      exact ⟨fun k0 _ i hi => absurd hi (List.not_mem_nil i),
        fun u => by simp,
        fun i hi => absurd hi (List.not_mem_nil i)⟩
    | cons cur rest => simp at hlen
  | succ fuel ih =>
    intro s lk hlen hp hB hlk
    cases s with
    | nil =>
      rw [emittedGo_nil]
      exact ⟨fun k0 _ i hi => absurd hi (List.not_mem_nil i),
        fun u => by simp,
        fun i hi => absurd hi (List.not_mem_nil i)⟩
    | cons cur rest =>
      simp only [List.length_cons] at hlen
      have hBcur : hasBadgerPfx cur.key = false := hB cur (List.mem_cons_self cur rest)
      have h1' : (!cfg.internalAccess && hasBadgerPfx cur.key) = false := by
        rw [hBcur, Bool.and_false]
      have hptail := (List.pairwise_cons.mp hp).2
      have hcur_rel := (List.pairwise_cons.mp hp).1
      have hBtail : ∀ e ∈ rest, hasBadgerPfx e.key = false :=
        fun e he => hB e (List.mem_cons_of_mem cur he)
      have hlktail : ∀ k0, lk = some k0 → ∀ e ∈ rest, k0.userKey = e.key.userKey ∨
          List.Lex (· < ·) k0.userKey e.key.userKey :=
        fun k0 hk e he => hlk k0 hk e (List.mem_cons_of_mem cur he)
      by_cases hv : ts < cur.key.version
      · -- version beyond the snapshot: skip, state unchanged
        rw [emittedGo_cons, parseItem_skip_version cfg ts cur rest lk h1' hv]
        dsimp only
        simp only [Option.toList, List.nil_append]
        rcases ih rest lk (by omega) hptail hBtail hlktail with ⟨IH1, IH2, IH3⟩
        refine ⟨IH1, IH2, ?_⟩
        intro i hi
        have h0 := IH3 i hi
        unfold newestLE at h0 ⊢
        rw [versionsLE_cons_skip cur rest i.key ts
          (fun hcc => (Nat.not_le.mpr hv) hcc.2)]
        exact h0
      · have hverLE : cur.key.version ≤ ts := Nat.le_of_not_lt hv
        by_cases hsk : sameKeyOpt lk cur.key = true
        · -- repeated user key: skip, lastKey unchanged
          rw [emittedGo_cons, parseItem_fwd_same cfg ts cur rest lk h1' hv hAV hrev hsk]
          dsimp only
          simp only [Option.toList, List.nil_append]
          cases lk with
          | none =>
            simp only [sameKeyOpt] at hsk
            exact Bool.noConfusion hsk
          | some k0c =>
            have hk0c : k0c.userKey = cur.key.userKey := by
              simp only [sameKeyOpt] at hsk
              exact beq_iff_eq.mp hsk
            rcases ih rest (some k0c) (by omega) hptail hBtail
              (hlktail) with ⟨IH1, IH2, IH3⟩
            refine ⟨IH1, IH2, ?_⟩
            intro i hi
            have h0 := IH3 i hi
            have hne : i.key ≠ cur.key.userKey := hk0c ▸ IH1 k0c rfl i hi
            unfold newestLE at h0 ⊢
            rw [versionsLE_cons_skip cur rest i.key ts
              (fun hcc => hne hcc.1.symm)]
            exact h0
        · -- new user key: record it as lastKey and run the FILL block
          have hsk' := Bool.eq_false_iff.mpr hsk
          rw [emittedGo_cons, parseItem_fwd_fill cfg ts cur rest lk h1' hv hAV hrev hsk',
            fillLoop_fwd ts cur rest]
          dsimp only
          have hlk' : ∀ k0, some cur.key = some k0 → ∀ e ∈ rest, k0.userKey = e.key.userKey ∨
              List.Lex (· < ·) k0.userKey e.key.userKey := by
            intro k0 hk e he
            injection hk with hk
            subst hk
            have h0 := hcur_rel e he
            unfold entLT at h0
            rcases h0 with hL | ⟨hEq, _⟩
            · exact Or.inr hL
            · exact Or.inl hEq
          rcases ih rest (some cur.key) (by omega) hptail hBtail hlk' with ⟨IH1, IH2, IH3⟩
          have hIne : ∀ i ∈ emittedGo cfg ts fuel rest (some cur.key),
              i.key ≠ cur.key.userKey := fun i hi => IH1 cur.key rfl i hi
          have hIsrc := emitted_source cfg ts fuel rest (some cur.key) (by omega)
          -- items of the tail emission never carry the old lastKey's user key
          have htailne : ∀ k0, lk = some k0 →
              ∀ i ∈ emittedGo cfg ts fuel rest (some cur.key), i.key ≠ k0.userKey := by
            intro k0 hk i hi hKey
            have hne0 : k0.userKey ≠ cur.key.userKey := by
              rw [hk] at hsk
              simp only [sameKeyOpt] at hsk
              exact fun hEq => hsk (beq_iff_eq.mpr hEq)
            have hlex : List.Lex (· < ·) k0.userKey cur.key.userKey := by
              rcases hlk k0 hk cur (List.mem_cons_self cur rest) with hEq | hL
              · exact absurd hEq hne0
              · exact hL
            rcases hIsrc i hi with ⟨e, he, hie, _, _⟩
            have hlex2 : List.Lex (· < ·) k0.userKey e.key.userKey := by
              have h0 := hcur_rel e he
              unfold entLT at h0
              rcases h0 with hL | ⟨hEq, _⟩
              · exact lexLt_trans hlex hL
              · exact hEq ▸ hlex
            have hKey2 : i.key = e.key.userKey := by rw [hie]; rfl
            rw [hKey2] at hKey
            rw [hKey] at hlex2
            exact lexLt_irrefl k0.userKey hlex2
          -- the tail's newestLE facts lift over the head entry
          have hlift : ∀ i ∈ emittedGo cfg ts fuel rest (some cur.key),
              newestLE (cur :: rest) i.key ts = some i.version := by
            intro i hi
            have h0 := IH3 i hi
            unfold newestLE at h0 ⊢
            rw [versionsLE_cons_skip cur rest i.key ts
              (fun hcc => hIne i hi hcc.1.symm)]
            exact h0
          by_cases hdel : isDeleted cur.value.Meta = true
          · rw [if_pos hdel]
            simp only [Option.toList, List.nil_append]
            refine ⟨htailne, IH2, hlift⟩
          · rw [if_neg hdel]
            simp only [Option.toList, List.singleton_append]
            refine ⟨?_, ?_, ?_⟩
            · -- no emitted item carries the old lastKey's user key
              intro k0 hk i hi
              rcases List.mem_cons.mp hi with rfl | hi'
              · have hne0 : k0.userKey ≠ cur.key.userKey := by
                  rw [hk] at hsk
                  simp only [sameKeyOpt] at hsk
                  exact fun hEq => hsk (beq_iff_eq.mpr hEq)
                intro hKey
                exact hne0 (by rw [← hKey]; rfl)
              · exact htailne k0 hk i hi'
            · -- at most one item per user key
              intro u
              rw [List.filter_cons]
              by_cases hu : ((mkItem cur).key == u) = true
              · rw [if_pos hu]
                have hueq : cur.key.userKey = u := beq_iff_eq.mp hu
                have hfil : (emittedGo cfg ts fuel rest (some cur.key)).filter
                    (fun i => i.key == u) = [] := by
                  apply List.filter_eq_nil_iff.mpr
                  intro i hi hc
                  exact hIne i hi (hueq ▸ beq_iff_eq.mp hc)
                rw [hfil]
                simp
              · rw [if_neg hu]
                exact IH2 u
            · -- every emitted item carries the newest in-snapshot version
              intro i hi
              rcases List.mem_cons.mp hi with rfl | hi'
              · show newestLE (cur :: rest) cur.key.userKey ts = some cur.key.version
                unfold newestLE
                rw [versionsLE_cons_mem cur rest cur.key.userKey ts rfl hverLE]
                apply listMax_eq_some
                · exact List.mem_cons_self _ _
                · intro b hb
                  rcases List.mem_cons.mp hb with rfl | hb'
                  · exact Nat.le_refl _
                  · rcases versionsLE_mem rest cur.key.userKey ts b hb' with
                      ⟨e, he, hKey, hVer, _⟩
                    have h0 := hcur_rel e he
                    unfold entLT at h0
                    rcases h0 with hL | ⟨_, hVlt⟩
                    · rw [hKey] at hL
                      exact absurd hL (lexLt_irrefl cur.key.userKey)
                    · omega
              · exact hlift i hi'

/-- The reverse `FILL:` walk on a stream sorted by (user key desc, version
asc): it consumes a non-empty group of entries of the current user key,
and when it produces an item, that item carries the current user key, the
group's largest version `≤ readTs` (the newest in-snapshot version), and
every same-key entry left in the stream is beyond `readTs`. -/
theorem fillLoop_rev (ts : Nat) :
    ∀ (rest : List Entry) (cur : Entry),
      (cur :: rest).Pairwise entGT → cur.key.version ≤ ts →
      ∃ pfx, cur :: rest = pfx ++ (fillLoop true ts cur rest).2 ∧ pfx ≠ [] ∧
        (∀ e ∈ pfx, e.key.userKey = cur.key.userKey) ∧
        ∀ i, (fillLoop true ts cur rest).1 = some i →
          i.key = cur.key.userKey ∧
          (∀ e ∈ (fillLoop true ts cur rest).2, e.key.userKey = cur.key.userKey →
            ts < e.key.version) ∧
          (∀ e ∈ cur :: rest, e.key.userKey = cur.key.userKey → e.key.version ≤ ts →
            e.key.version ≤ i.version) := by
  intro rest
  induction rest with
  | nil =>
    intro cur _ hver
    simp only [fillLoop]
    by_cases hdel : isDeleted cur.value.Meta = true
    · rw [if_pos hdel]
      refine ⟨[cur], rfl, List.cons_ne_nil cur [], ?_, ?_⟩
      · intro e he
        rcases List.mem_singleton.mp he with rfl
        rfl
      · intro i h
        cases h
    · rw [if_neg hdel]
      refine ⟨[cur], rfl, List.cons_ne_nil cur [], ?_, ?_⟩
      · intro e he
        rcases List.mem_singleton.mp he with rfl
        rfl
      · intro i h
        injection h with h2
        subst h2
        refine ⟨rfl, fun e he => absurd he (List.not_mem_nil e), ?_⟩
        intro e he _ hev
        rcases List.mem_singleton.mp he with rfl
        exact Nat.le_refl _
  | cons next rest2 ih =>
    intro cur hp hver
    have hp2 : (next :: rest2).Pairwise entGT := (List.pairwise_cons.mp hp).2
    have hcn : entGT cur next := (List.pairwise_cons.mp hp).1 next (List.mem_cons_self next rest2)
    simp only [fillLoop, Bool.true_and]
    by_cases hdel : isDeleted cur.value.Meta = true
    · rw [if_pos hdel]
      refine ⟨[cur], rfl, List.cons_ne_nil cur [], ?_, ?_⟩
      · intro e he
        rcases List.mem_singleton.mp he with rfl
        rfl
      · intro i h
        cases h
    · rw [if_neg hdel]
      by_cases hc : (decide (next.key.version ≤ ts) && (next.key.userKey == cur.key.userKey)) = true
      · -- the next entry is a better candidate: keep walking
        rw [if_pos hc]
        have hnv : next.key.version ≤ ts := by
          rcases Bool.and_eq_true_iff.mp hc with ⟨hc1, _⟩
          exact of_decide_eq_true hc1
        have hnk : next.key.userKey = cur.key.userKey := by
          rcases Bool.and_eq_true_iff.mp hc with ⟨_, hc2⟩
          exact beq_iff_eq.mp hc2
        have hcv : cur.key.version < next.key.version := by
          have h0 := hcn
          unfold entGT at h0
          rcases h0 with hL | ⟨_, hlt⟩
          · rw [hnk] at hL
            exact absurd hL (lexLt_irrefl cur.key.userKey)
          · exact hlt
        rcases ih next hp2 hnv with ⟨pfx', hdec', _, hkeys', hsome'⟩
        refine ⟨cur :: pfx', ?_, List.cons_ne_nil cur pfx', ?_, ?_⟩
        · rw [List.cons_append, ← hdec']
        · intro e he
          rcases List.mem_cons.mp he with rfl | he'
          · rfl
          · rw [hkeys' e he', hnk]
        · intro i h
          rcases hsome' i h with ⟨hik, hres', hmax'⟩
          refine ⟨hnk ▸ hik, ?_, ?_⟩
          · intro e he hek
            exact hres' e he (hnk ▸ hek)
          · intro e he hek hev
            rcases List.mem_cons.mp he with rfl | he'
            · have hnle : next.key.version ≤ i.version :=
                hmax' next (List.mem_cons_self next rest2) rfl hnv
              omega
            · exact hmax' e he' (hnk ▸ hek) hev
      · -- the next entry is no candidate: emit the current item
        rw [if_neg hc]
        have hOr : ts < next.key.version ∨ next.key.userKey ≠ cur.key.userKey := by
          rcases Bool.and_eq_false_iff.mp (Bool.eq_false_iff.mpr hc) with h0 | h0
          · exact Or.inl (Nat.lt_of_not_le (of_decide_eq_false h0))
          · exact Or.inr (beq_eq_false_iff_ne.mp h0)
        have hrestc : ∀ e ∈ next :: rest2, e.key.userKey = cur.key.userKey →
            ts < e.key.version := by
          intro e he hek
          rcases List.mem_cons.mp he with rfl | he'
          · rcases hOr with h0 | h0
            · exact h0
            · exact absurd hek h0
          · have hne : entGT next e :=
              (List.pairwise_cons.mp hp2).1 e he'
            unfold entGT at hne
            by_cases hnk : next.key.userKey = cur.key.userKey
            · have hts : ts < next.key.version := by
                rcases hOr with h0 | h0
                · exact h0
                · exact absurd hnk h0
              rcases hne with hL | ⟨_, hlt⟩
              · rw [hek, hnk] at hL
                exact absurd hL (lexLt_irrefl cur.key.userKey)
              · omega
            · exfalso
              have hL1 : List.Lex (· < ·) next.key.userKey cur.key.userKey := by
                have h0 := hcn
                unfold entGT at h0
                rcases h0 with hL | ⟨hEq, _⟩
                · exact hL
                · exact absurd hEq.symm hnk
              rcases hne with hL2 | ⟨hEq, _⟩
              · have := lexLt_trans hL2 hL1
                rw [hek] at this
                exact lexLt_irrefl cur.key.userKey this
              · exact hnk (hEq ▸ hek)
        refine ⟨[cur], rfl, List.cons_ne_nil cur [], ?_, ?_⟩
        · intro e he
          rcases List.mem_singleton.mp he with rfl
          rfl
        · intro i h
          injection h with h2
          subst h2
          refine ⟨rfl, hrestc, ?_⟩
          intro e he hek hev
          rcases List.mem_cons.mp he with rfl | he'
          · exact Nat.le_refl _
          · exact absurd hev (Nat.not_le.mpr (hrestc e he' hek))

/-- A `newestLE` fact about the unconsumed part of a reverse-sorted stream
lifts over the consumed group: the consumed entries are all older. -/
theorem newestLE_lift (s pfx res : List Entry) (hdec : s = pfx ++ res)
    (hp : s.Pairwise entGT) (u : List Nat) (ts v : Nat)
    (hne : newestLE res u ts = some v) : newestLE s u ts = some v := by
  unfold newestLE at hne ⊢
  subst hdec
  rw [versionsLE_append]
  have hvmem := listMax_mem _ _ hne
  rcases versionsLE_mem res u ts v hvmem with ⟨e', he', hk', hv', hts'⟩
  apply listMax_append_right _ _ _ hne
  intro x hx
  rcases versionsLE_mem pfx u ts x hx with ⟨e, he, hk, hvx, htsx⟩
  have hrel : entGT e e' := (List.pairwise_append.mp hp).2.2 e he e' he'
  unfold entGT at hrel
  rcases hrel with hL | ⟨_, hlt⟩
  · rw [hk', hk] at hL
    exact absurd hL (lexLt_irrefl u)
  · omega

/-- Reverse-direction invariant of the emission loop: on a stream sorted
by (user key desc, version asc) with no internal keys, at most one item
is emitted per user key, and every emitted item carries the newest
version `≤ readTs` its user key has in the stream. -/
theorem revMain (cfg : IterOpts) (ts : Nat) (hrev : cfg.reverse = true)
    (hAV : cfg.allVersions = false) :
    ∀ (fuel : Nat) (s : List Entry) (lk : Option IKey), s.length ≤ fuel →
      s.Pairwise entGT →
      (∀ e ∈ s, hasBadgerPfx e.key = false) →
      (∀ u, ((emittedGo cfg ts fuel s lk).filter (fun i => i.key == u)).length ≤ 1) ∧
      (∀ i ∈ emittedGo cfg ts fuel s lk, newestLE s i.key ts = some i.version) := by
  intro fuel
  induction fuel with
  | zero =>
    intro s lk hlen hp hB
    cases s with
    | nil =>
      rw [emittedGo_nil]
      exact ⟨fun u => by simp, fun i hi => absurd hi (List.not_mem_nil i)⟩
    | cons cur rest => simp at hlen
  | succ fuel ih =>
    intro s lk hlen hp hB
    cases s with
    | nil =>
      rw [emittedGo_nil]
      exact ⟨fun u => by simp, fun i hi => absurd hi (List.not_mem_nil i)⟩
    | cons cur rest =>
      simp only [List.length_cons] at hlen
      have hBcur : hasBadgerPfx cur.key = false := hB cur (List.mem_cons_self cur rest)
      have h1' : (!cfg.internalAccess && hasBadgerPfx cur.key) = false := by
        rw [hBcur, Bool.and_false]
      have hptail := (List.pairwise_cons.mp hp).2
      have hBtail : ∀ e ∈ rest, hasBadgerPfx e.key = false :=
        fun e he => hB e (List.mem_cons_of_mem cur he)
      by_cases hv : ts < cur.key.version
      · -- version beyond the snapshot: skip
        rw [emittedGo_cons, parseItem_skip_version cfg ts cur rest lk h1' hv]
        dsimp only
        simp only [Option.toList, List.nil_append]
        rcases ih rest lk (by omega) hptail hBtail with ⟨IH1, IH2⟩
        refine ⟨IH1, ?_⟩
        intro i hi
        have h0 := IH2 i hi
        unfold newestLE at h0 ⊢
        rw [versionsLE_cons_skip cur rest i.key ts
          (fun hcc => (Nat.not_le.mpr hv) hcc.2)]
        exact h0
      · -- run the reverse FILL block
        have hverLE : cur.key.version ≤ ts := Nat.le_of_not_lt hv
        rw [emittedGo_cons, parseItem_rev_fill cfg ts cur rest lk h1' hv hAV hrev]
        dsimp only
        rcases fillLoop_rev ts rest cur hp hverLE with ⟨pfx, hdec, hpne, hkeys, hsome⟩
        have hlenres : (fillLoop true ts cur rest).2.length ≤ rest.length := by
          have h0 := congrArg List.length hdec
          rw [List.length_cons, List.length_append] at h0
          have h1 : 1 ≤ pfx.length := by
            cases pfx with
            | nil => exact absurd rfl hpne
            | cons a l => simp
          omega
        have hpres : ((fillLoop true ts cur rest).2).Pairwise entGT := by
          have h0 := hp
          rw [hdec] at h0
          exact (List.pairwise_append.mp h0).2.1
        have hBres : ∀ e ∈ (fillLoop true ts cur rest).2, hasBadgerPfx e.key = false := by
          intro e he
          apply hB
          rw [hdec]
          exact List.mem_append_right pfx he
        rcases ih (fillLoop true ts cur rest).2 lk (by omega) hpres hBres with ⟨IH1, IH2⟩
        have hIsrc := emitted_source cfg ts fuel (fillLoop true ts cur rest).2 lk (by omega)
        cases ho : (fillLoop true ts cur rest).1 with
        | none =>
          simp only [Option.toList, List.nil_append]
          refine ⟨IH1, ?_⟩
          intro i hi
          exact newestLE_lift (cur :: rest) pfx (fillLoop true ts cur rest).2 hdec hp
            i.key ts i.version (IH2 i hi)
        | some i =>
          rcases hsome i ho with ⟨hik, hres, hmax⟩
          simp only [Option.toList, List.singleton_append]
          refine ⟨?_, ?_⟩
          · -- at most one item per user key
            intro u
            rw [List.filter_cons]
            by_cases hu : (i.key == u) = true
            · rw [if_pos hu]
              have hueq : i.key = u := beq_iff_eq.mp hu
              have hfil : ((emittedGo cfg ts fuel (fillLoop true ts cur rest).2 lk).filter
                  (fun j => j.key == u)) = [] := by
                apply List.filter_eq_nil_iff.mpr
                intro j hj hc
                rcases hIsrc j hj with ⟨e, he, hje, hever, _⟩
                have hjkey : j.key = e.key.userKey := by rw [hje]; rfl
                have hek : e.key.userKey = cur.key.userKey := by
                  rw [← hjkey, beq_iff_eq.mp hc, ← hueq, hik]
                exact absurd hever (Nat.not_le.mpr (hres e he hek))
              rw [hfil]
              simp
            · rw [if_neg hu]
              exact IH1 u
          · -- every emitted item carries the newest in-snapshot version
            intro i' hi'
            rcases List.mem_cons.mp hi' with rfl | hi''
            · rcases fillLoop_some true ts rest cur hverLE i' ho with
                ⟨em, hmemem, hiem, _, hverem⟩
              have hkeyem : i'.key = em.key.userKey := by rw [hiem]; rfl
              have hverem' : i'.version = em.key.version := by rw [hiem]; rfl
              unfold newestLE
              apply listMax_eq_some
              · rw [hverem']
                exact versionsLE_mem_intro (cur :: rest) i'.key ts em hmemem
                  hkeyem.symm hverem
              · intro b hb
                rcases versionsLE_mem (cur :: rest) i'.key ts b hb with
                  ⟨e, he, hek, hev, hbts⟩
                have h0 := hmax e he (by rw [hek, hik]) (by omega)
                omega
            · exact newestLE_lift (cur :: rest) pfx (fillLoop true ts cur rest).2 hdec hp
                i'.key ts i'.version (IH2 i' hi'')

/-- A stream sorted in the forward merge order holds at most one entry per
(user key, version) pair. -/
theorem pairwise_entLT_inj (s : List Entry) (hp : s.Pairwise entLT) :
    ∀ e1 ∈ s, ∀ e2 ∈ s, e1.key.userKey = e2.key.userKey →
      e1.key.version = e2.key.version → e1 = e2 := by
  intro e1 h1 e2 h2 hk hv
  by_contra hne
  have hsym : Symmetric (fun a b => entLT a b ∨ entLT b a) := fun a b h => h.symm
  have hp' : s.Pairwise (fun a b => entLT a b ∨ entLT b a) := hp.imp Or.inl
  have h0 := hp'.forall hsym h1 h2 hne
  rcases h0 with h | h
  · unfold entLT at h
    rcases h with hL | ⟨_, hlt⟩
    · rw [hk] at hL
      exact lexLt_irrefl _ hL
    · omega
  · unfold entLT at h
    rcases h with hL | ⟨_, hlt⟩
    · rw [← hk] at hL
      exact lexLt_irrefl _ hL
    · omega

/-- A stream sorted in the reverse merge order holds at most one entry per
(user key, version) pair. -/
theorem pairwise_entGT_inj (s : List Entry) (hp : s.Pairwise entGT) :
    ∀ e1 ∈ s, ∀ e2 ∈ s, e1.key.userKey = e2.key.userKey →
      e1.key.version = e2.key.version → e1 = e2 := by
  intro e1 h1 e2 h2 hk hv
  by_contra hne
  have hsym : Symmetric (fun a b => entGT a b ∨ entGT b a) := fun a b h => h.symm
  have hp' : s.Pairwise (fun a b => entGT a b ∨ entGT b a) := hp.imp Or.inl
  have h0 := hp'.forall hsym h1 h2 hne
  rcases h0 with h | h
  · unfold entGT at h
    rcases h with hL | ⟨_, hlt⟩
    · rw [← hk] at hL
      exact lexLt_irrefl _ hL
    · omega
  · unfold entGT at h
    rcases h with hL | ⟨_, hlt⟩
    · rw [hk] at hL
      exact lexLt_irrefl _ hL
    · omega

/-- **C1**: with `AllVersions=false`, over a merged source stream sorted in
iteration order (user key asc / version desc forward, user key desc /
version asc reverse) holding no badger-internal keys, the snapshot
iterator emits at most one item per user key, and any item it emits for a
user key carries the newest version `≤ readTs` that the stream holds for
that key (forward via the `lastKey` check, reverse via the one-ahead
candidate walk in `parseItem`). -/
theorem iterator_one_item_per_key (cfg : IterOpts) (ts : Nat) (s : List Entry)
    (u : List Nat) (hAV : cfg.allVersions = false)
    (hB : ∀ e ∈ s, hasBadgerPfx e.key = false)
    (hsf : cfg.reverse = false → s.Pairwise entLT)
    (hsr : cfg.reverse = true → s.Pairwise entGT) :
    ((emitted cfg ts s none).filter (fun i => i.key == u)).length ≤ 1 ∧
    ∀ i ∈ emitted cfg ts s none, i.key = u → newestLE s u ts = some i.version := by
  unfold emitted
  cases hrevc : cfg.reverse with
  | false =>
    rcases fwdMain cfg ts hrevc hAV s.length s none (Nat.le_refl _) (hsf hrevc) hB
      (fun k0 hk => nomatch hk) with ⟨_, M2, M3⟩
    exact ⟨M2 u, fun i hi hKey => hKey ▸ M3 i hi⟩
  | true =>
    rcases revMain cfg ts hrevc hAV s.length s none (Nat.le_refl _) (hsr hrevc) hB
      with ⟨M1, M2⟩
    exact ⟨M1 u, fun i hi hKey => hKey ▸ M2 i hi⟩

/-- **C2**: (a) with `AllVersions=false` no emitted item has the delete bit
set; (b) with `AllVersions=false`, if the newest version `≤ readTs` of a
user key in the (sorted, non-internal) stream is a tombstone, no item at
all is emitted for that user key; (c) with `AllVersions=true` tombstoned
in-snapshot entries are emitted. -/
theorem iterator_tombstones (cfg : IterOpts) (ts : Nat) (s : List Entry) :
    (cfg.allVersions = false → ∀ i ∈ emitted cfg ts s none, isDeleted i.meta = false) ∧
    (cfg.allVersions = false → ∀ (u : List Nat) (ed : Entry),
      (∀ e ∈ s, hasBadgerPfx e.key = false) →
      (cfg.reverse = false → s.Pairwise entLT) →
      (cfg.reverse = true → s.Pairwise entGT) →
      ed ∈ s → ed.key.userKey = u → ed.key.version ≤ ts →
      isDeleted ed.value.Meta = true →
      (∀ e ∈ s, e.key.userKey = u → e.key.version ≤ ts →
        e.key.version ≤ ed.key.version) →
      ∀ i ∈ emitted cfg ts s none, i.key ≠ u) ∧
    (cfg.allVersions = true → ∀ e ∈ s, e.key.version ≤ ts →
      hasBadgerPfx e.key = false → isDeleted e.value.Meta = true →
      mkItem e ∈ emitted cfg ts s none) := by
  refine ⟨?_, ?_, ?_⟩
  · -- no emitted item is a tombstone
    intro hAV i hi
    unfold emitted at hi
    rcases emitted_source cfg ts s.length s none (Nat.le_refl _) i hi with
      ⟨e, _, hie, _, hnd | hav⟩
    · rw [hie]
      exact hnd
    · rw [hAV] at hav
      exact Bool.noConfusion hav
  · -- a tombstoned newest version suppresses its user key entirely
    intro hAV u ed hB hsf hsr hed hedk hedv heddel hmax i hi hKey
    -- the emitted item for `u` would carry the newest version, which is `ed`'s
    have hnewest : newestLE s u ts = some i.version := by
      unfold emitted at hi
      cases hrevc : cfg.reverse with
      | false =>
        rcases fwdMain cfg ts hrevc hAV s.length s none (Nat.le_refl _) (hsf hrevc) hB
          (fun k0 hk => nomatch hk) with ⟨_, _, M3⟩
        exact hKey ▸ M3 i hi
      | true =>
        rcases revMain cfg ts hrevc hAV s.length s none (Nat.le_refl _) (hsr hrevc) hB
          with ⟨_, M2⟩
        exact hKey ▸ M2 i hi
    unfold newestLE at hnewest
    have hvmem := listMax_mem _ _ hnewest
    rcases versionsLE_mem s u ts i.version hvmem with ⟨e0, he0, he0k, he0v, he0ts⟩
    have hle1 : i.version ≤ ed.key.version := he0v ▸ hmax e0 he0 he0k (by omega)
    have hle2 : ed.key.version ≤ i.version :=
      listMax_le _ _ hnewest ed.key.version (versionsLE_mem_intro s u ts ed hed hedk hedv)
    -- the emitted item's source entry has `ed`'s key and version but is clean
    unfold emitted at hi
    rcases emitted_source cfg ts s.length s none (Nat.le_refl _) i hi with
      ⟨e', he', hie', _, hnd | hav⟩
    · have he'k : e'.key.userKey = u := by
        rw [← hKey, hie']
        rfl
      have he'v : e'.key.version = ed.key.version := by
        have : i.version = e'.key.version := by
          rw [hie']
          rfl
        omega
      have hee : e' = ed := by
        cases hrevc : cfg.reverse with
        | false =>
          exact pairwise_entLT_inj s (hsf hrevc) e' he' ed hed (he'k.trans hedk.symm) he'v
        | true =>
          exact pairwise_entGT_inj s (hsr hrevc) e' he' ed hed (he'k.trans hedk.symm) he'v
      rw [hee, heddel] at hnd
      exact Bool.noConfusion hnd
    · rw [hAV] at hav
      exact Bool.noConfusion hav
  · -- AllVersions emits tombstones
    intro hAV e he hver hbp _
    unfold emitted
    exact emitted_av cfg ts hAV s.length s none (Nat.le_refl _) e he hver hbp

/-- **C3**: the snapshot iterator never emits an item whose version exceeds
`readTs`, for every configuration, stream and `lastKey` state. -/
theorem iterator_respects_readTs (cfg : IterOpts) (ts : Nat) (s : List Entry)
    (lk : Option IKey) : ∀ i ∈ emitted cfg ts s lk, i.version ≤ ts := by
  intro i hi
  unfold emitted at hi
  rcases emitted_source cfg ts s.length s lk (Nat.le_refl _) i hi with ⟨e, _, hie, hever, _⟩
  rw [hie]
  exact hever

/-- Forward snapshot-iterator configuration for the concrete runs below. -/
def itCfgF : IterOpts := ⟨false, false, false⟩

/-- Reverse snapshot-iterator configuration. -/
def itCfgR : IterOpts := ⟨true, false, false⟩

/-- `AllVersions` snapshot-iterator configuration. -/
def itCfgA : IterOpts := ⟨false, true, false⟩

/-- A clean value and a tombstoned value. -/
def itVal0 : VStruct := ⟨0, [], [], 0⟩

def itValDel : VStruct := ⟨1, [], [], 0⟩

/-- A forward-sorted stream: key `[1]` at versions 7 and 3, key `[2]` at 5. -/
def itS0 : List Entry := [⟨⟨[1], 7⟩, itVal0⟩, ⟨⟨[1], 3⟩, itVal0⟩, ⟨⟨[2], 5⟩, itVal0⟩]

/-- The same stream with the newest version of `[1]` tombstoned. -/
def itSD : List Entry := [⟨⟨[1], 7⟩, itValDel⟩, ⟨⟨[1], 3⟩, itVal0⟩, ⟨⟨[2], 5⟩, itVal0⟩]

def itED : Entry := ⟨⟨[1], 7⟩, itValDel⟩

def itE2 : Entry := ⟨⟨[2], 5⟩, itVal0⟩

/-- Witness for C1: on `itS0` at `readTs = 10`, at most one item is emitted
for user key `[1]` and any such item carries version 7. -/
theorem iterator_one_item_per_key_witness :
    ((emitted itCfgF 10 itS0 none).filter (fun i => i.key == [1])).length ≤ 1 ∧
    ∀ i ∈ emitted itCfgF 10 itS0 none, i.key = [1] → newestLE itS0 [1] 10 = some i.version :=
  iterator_one_item_per_key itCfgF 10 itS0 [1] rfl (by decide) (fun _ => by decide)
    (fun h => absurd h (by decide))

/-- Witness for C2: on `itSD` (newest version of `[1]` tombstoned) nothing
is emitted for `[1]` and no emitted item is deleted, while under
`AllVersions` the tombstone itself is emitted. -/
theorem iterator_tombstones_witness :
    (∀ i ∈ emitted itCfgF 10 itSD none, isDeleted i.meta = false) ∧
    (∀ i ∈ emitted itCfgF 10 itSD none, i.key ≠ [1]) ∧
    mkItem itED ∈ emitted itCfgA 10 itSD none := by
  refine ⟨(iterator_tombstones itCfgF 10 itSD).1 rfl, ?_, ?_⟩
  · exact (iterator_tombstones itCfgF 10 itSD).2.1 rfl [1] itED (by decide)
      (fun _ => by decide) (fun h => absurd h (by decide)) (by decide) rfl (by decide)
      (by decide) (by decide)
  · exact (iterator_tombstones itCfgA 10 itSD).2.2 rfl itED (by decide) (by decide)
      (by decide) (by decide)

/-- Witness for C3: the item emitted for key `[2]` of `itS0` respects
`readTs = 10`. -/
theorem iterator_respects_readTs_witness : (mkItem itE2).version ≤ 10 :=
  iterator_respects_readTs itCfgF 10 itS0 none (mkItem itE2) (by decide)
